import Mathlib

/-!
Verification development for the relation-extraction pipeline in
`relations.py` (classes `SentenceReltuples`, `RelGraph`, `TextReltuples`).

The Python code is shallowly embedded: sentences are flat arrays of
tagged words (mirroring the UDPipe sentence object), the relation graph
is an insertion-ordered association structure (mirroring the networkx
`MultiDiGraph`, whose node/edge dicts preserve insertion order), and the
recursive tree walks of the extractor are embedded either with an explicit
fuel bound (the Python recursion is unbounded and assumes an acyclic tree)
or on an inductive tree type capturing the valid-tree precondition.

Python string-keyed identities are embedded structurally: a node key
"{lemmas} + {str(feat_type)}" becomes the pair of the lemma string and the
sorted cluster list (the rendering is injective because `+` never survives
`_clean_string`), and the " | "-joined label/lemma/deprel strings, which the
code only ever compares for equality and unions, become finite sets of their
" | "-components.  External collaborators (the scipy cosine distance, the
word2vec lookup) are parameters of the embedding.
-/

/-! ## Sentence and word model (consumed by `SentenceReltuples`) -/

/-- A parsed word as consumed from the UDPipe sentence object:
id, surface form, lemma, POS tag, dependency label, head id, child ids. -/
structure UWord where
  wid : Nat
  form : String
  lemma_ : String
  upostag : String
  deprel : String
  headId : Nat
  children : List Nat
deriving Repr, DecidableEq

instance : Inhabited UWord := ⟨⟨0, "", "", "", "", 0, []⟩⟩

/-- A sentence: `words` is indexed by word id (index 0 is the technical root),
mirroring `self.sentence.words[id_]`. -/
structure USentence where
  words : List UWord
deriving Repr

/-- Word lookup `sentence.words[i]` (out-of-range access is modelled by a
default word; the Python code never indexes out of range on valid input). -/
def USentence.word (s : USentence) (i : Nat) : UWord :=
  s.words.getD i default

/-- The punctuation allow-list of `SentenceReltuples._clean_string`. -/
def allowedPunct : List Char := [',', '.', ';', '-', '—', '_', '/', ':', '%']

/-- Characters stripped from both ends by `.strip(" .,:;-")`. -/
def stripSet : List Char := [' ', '.', ',', ':', ';', '-']

/-- `SentenceReltuples._clean_string`: keep alphanumerics, whitespace and the
allow-list, lowercase, strip leading/trailing separator punctuation. -/
def cleanString (str : String) : String :=
  let kept := str.toList.filter fun c =>
    c.isAlphanum || c.isWhitespace || allowedPunct.contains c
  let lowered := kept.map Char.toLower
  let l1 := lowered.dropWhile (stripSet.contains ·)
  let l2 := (l1.reverse.dropWhile (stripSet.contains ·)).reverse
  String.mk l2

/-- Python `str.strip()` with no arguments: drop surrounding whitespace. -/
def stripWS (str : String) : String :=
  String.mk (((str.toList.dropWhile Char.isWhitespace).reverse.dropWhile
    Char.isWhitespace).reverse)

/-- `SentenceReltuples._arg_to_string`: space-join the (stripped) forms or
lemmas of the id span, then clean. -/
def argToString (s : USentence) (wordsIds : List Nat) (lemmatized : Bool) : String :=
  let strs := wordsIds.map fun i =>
    if lemmatized then stripWS (s.word i).lemma_ else stripWS (s.word i).form
  cleanString (String.intercalate " " strs)

/-- A relation span is either a list of word ids or a literal symbolic label
(`_is_a_` / `_relates_to_`), mirroring the list-or-str union in the code. -/
inductive RelSpan where
  | ids (l : List Nat)
  | sym (s : String)
deriving Repr, DecidableEq

/-- `SentenceReltuples._relation_to_string`. -/
def relationToString (s : USentence) (r : RelSpan) (lemmatized : Bool) : String :=
  match r with
  | .ids l =>
      cleanString (String.intercalate " "
        (l.map fun i => if lemmatized then (s.word i).lemma_ else (s.word i).form))
  | .sym str => cleanString str

/-- `SentenceReltuples._is_stopwords`: the span's lemma set is contained in the
stopword set, or the span is a single one-letter alphabetic lemma. -/
def isStopwords (s : USentence) (stop : List String) (wordsIds : List Nat) : Bool :=
  (wordsIds.all fun i => stop.contains (s.word i).lemma_) ||
  (wordsIds.length == 1 &&
    (let lem := (s.word (wordsIds.headD 0)).lemma_
     lem.length == 1 && lem.toList.all Char.isAlpha))

/-- `SentenceReltuples._get_root`: the last word of the span whose head lies
outside the span (`None` is modelled by the default word). -/
def getRoot (s : USentence) (wordsIds : List Nat) : UWord :=
  wordsIds.foldl
    (fun acc i =>
      let w := s.word i
      if wordsIds.contains w.headId then acc else w)
    default

/-- The `Reltuple` named tuple (embedding vectors are rational lists). -/
structure Reltuple where
  left_arg : String
  left_arg_lemmas : String
  left_w2v : List Rat
  relation : String
  relation_lemmas : String
  right_arg : String
  right_arg_lemmas : String
  right_deprel : String
  right_w2v : List Rat
deriving Repr, DecidableEq

/-- An id-level tuple (left span, relation span, right span) as produced by
`_get_words_ids_tuples` before rendering. -/
abbrev IdsTriple := List Nat × RelSpan × List Nat

/-- `SentenceReltuples._to_tuple`, with the word2vec lookup
`_get_phrase_vector` abstracted as the parameter `w2v`. -/
def toTuple (s : USentence) (w2v : List Nat → List Rat) (t : IdsTriple) : Reltuple :=
  { left_arg := argToString s t.1 false
    left_arg_lemmas := argToString s t.1 true
    left_w2v := w2v t.1
    relation := relationToString s t.2.1 false
    relation_lemmas := relationToString s t.2.1 true
    right_arg := argToString s t.2.2 false
    right_arg_lemmas := argToString s t.2.2 true
    right_deprel := (s.word (getRoot s t.2.2).wid).deprel
    right_w2v := w2v t.2.2 }

/-- The tail of `SentenceReltuples.__init__` composed with the final filter of
`_get_words_ids_tuples`.  `raw` is the list of id tuples collected by the
copula/verb/additional-relations passes (the two filters below are applied to
that list whatever those passes produced, which is exactly what is proved
about them): first the stopword/degenerate filter of `_get_words_ids_tuples`,
then rendering via `_to_tuple`, then the reflexive-tuple filter of
`__init__`. -/
def sentenceReltuplesOf (s : USentence) (stop : List String)
    (w2v : List Nat → List Rat) (raw : List IdsTriple) : List Reltuple :=
  let wordsIdsTuples := raw.filter fun t =>
    !isStopwords s stop t.1 && !isStopwords s stop t.2.2
  let rts := wordsIdsTuples.map (toTuple s w2v)
  rts.filter fun rt => rt.left_arg != rt.right_arg

/-! ## Fuel-bounded verb extraction (`_get_verb_reltuples` and helpers) -/

/-- `SentenceReltuples._is_subject`. -/
def isSubjectW (w : UWord) : Bool :=
  w.deprel == "nsubj" || w.deprel == "nsubj:pass"

/-- `SentenceReltuples._is_right_arg`. -/
def isRightArgW (w : UWord) : Bool :=
  ["obj", "iobj", "obl", "obl:agent", "iobl"].contains w.deprel

/-- `SentenceReltuples._is_conjunct`. -/
def isConjunctW (w : UWord) : Bool :=
  w.deprel == "conj"

/-- `SentenceReltuples._get_subtree` over the flat sentence, with a fuel bound
standing for the acyclicity the source assumes. -/
def getSubtreeF (s : USentence) : Nat → UWord → List Nat
  | 0, w => [w.wid]
  | fuel + 1, w =>
    if w.children.isEmpty then [w.wid]
    else
      ((w.children.filter (· < w.wid)).map
          fun cid => getSubtreeF s fuel (s.word cid)).flatten
        ++ [w.wid] ++
        ((w.children.filter (w.wid < ·)).map
          fun cid => getSubtreeF s fuel (s.word cid)).flatten

/-- `SentenceReltuples._get_subjects`, with fuel for the recursion to the
governor through `conj`/`xcomp`. -/
def getSubjects (s : USentence) : Nat → UWord → List (List Nat)
  | 0, _ => []
  | fuel + 1, w =>
    let subjList := (w.children.filter fun cid => isSubjectW (s.word cid)).map
      fun cid => getSubtreeF s fuel (s.word cid)
    if subjList.isEmpty && (w.deprel == "conj" || w.deprel == "xcomp") then
      getSubjects s fuel (s.word w.headId)
    else subjList

/-- `SentenceReltuples._get_verb_right_args` with fuel. -/
def getVerbRightArgs (s : USentence) : Nat → UWord → List (List Nat)
  | 0, _ => []
  | fuel + 1, w =>
    let args := (w.children.filter fun cid => isRightArgW (s.word cid)).map
      fun cid => getSubtreeF s fuel (s.word cid)
    let parent := s.word w.headId
    let args1 := if w.deprel == "xcomp" then args ++ getVerbRightArgs s fuel parent else args
    if isConjunctW w && parent.deprel == "xcomp" then
      args1 ++ getVerbRightArgs s fuel (s.word parent.headId)
    else args1

/-- The child test of `_get_relation_prefix` / `_get_relation_postfix`:
`case`/`aux`/`aux:pass` label or `PART` tag. -/
def relSatChild (s : USentence) (cid : Nat) : Bool :=
  let c := s.word cid
  c.deprel == "case" || c.deprel == "aux" || c.deprel == "aux:pass" || c.upostag == "PART"

/-- Satellite children before the head (first loop of `_get_relation_prefix`). -/
def relPreChildren (s : USentence) (w : UWord) : List Nat :=
  w.children.filter fun cid => relSatChild s cid && cid < w.wid

/-- Satellite children after the head (first loop of `_get_relation_postfix`). -/
def relPostChildren (s : USentence) (w : UWord) : List Nat :=
  w.children.filter fun cid => relSatChild s cid && w.wid < cid

/-- `SentenceReltuples._get_relation` with no right argument supplied
(the `right_arg=None` path), fuelled for the governor recursion. -/
def getRelationIds (s : USentence) : Nat → UWord → List Nat
  | 0, w => [w.wid]
  | fuel + 1, w =>
    let parent := s.word w.headId
    let pre1 :=
      if w.deprel == "xcomp" then getRelationIds s fuel parent ++ relPreChildren s w
      else relPreChildren s w
    let pre2 :=
      if isConjunctW w && parent.deprel == "xcomp" then
        getRelationIds s fuel (s.word parent.headId) ++ pre1
      else pre1
    pre2 ++ [w.wid] ++ relPostChildren s w

/-- `SentenceReltuples._get_first_case`. -/
def getFirstCase (s : USentence) (wordsIds : List Nat) : Option Nat :=
  let root := getRoot s wordsIds
  wordsIds.find? fun i => i < root.wid && (s.word i).deprel == "case"

/-- `SentenceReltuples._get_relation` with a right argument: the leading case
marker of the argument is moved into the relation postfix; the function
returns the relation span together with the (possibly shrunk) argument,
making the Python in-place `right_arg.remove(case_id)` explicit. -/
def getRelationWithArg (s : USentence) (fuel : Nat) (w : UWord)
    (rightArg : List Nat) : List Nat × List Nat :=
  match fuel with
  | 0 => ([w.wid], rightArg)
  | fuel + 1 =>
    let parent := s.word w.headId
    let pre1 :=
      if w.deprel == "xcomp" then getRelationIds s fuel parent ++ relPreChildren s w
      else relPreChildren s w
    let pre2 :=
      if isConjunctW w && parent.deprel == "xcomp" then
        getRelationIds s fuel (s.word parent.headId) ++ pre1
      else pre1
    let post := relPostChildren s w
    if rightArg.isEmpty then (pre2 ++ [w.wid] ++ post, rightArg)
    else
      match getFirstCase s rightArg with
      | some cid => (pre2 ++ [w.wid] ++ post ++ [cid], rightArg.erase cid)
      | none => (pre2 ++ [w.wid] ++ post, rightArg)

/-- `SentenceReltuples._get_verb_reltuples`.  A verb with a direct `xcomp`
child yields no tuples; otherwise the subject × right-arg cross product is
emitted.  The right-arg lists are threaded through the subject loop because
the Python code mutates the shared argument lists across iterations. -/
def getVerbReltuples (s : USentence) (fuel : Nat) (verb : UWord) : List IdsTriple :=
  if verb.children.any (fun cid => (s.word cid).deprel == "xcomp") then []
  else
    let subjects := getSubjects s fuel verb
    let rightArgs0 := getVerbRightArgs s fuel verb
    (subjects.foldl
      (fun (acc : List IdsTriple × List (List Nat)) subj =>
        let processed := acc.2.map fun arg =>
          let pr := getRelationWithArg s fuel verb arg
          ((subj, RelSpan.ids pr.1, pr.2), pr.2)
        (acc.1 ++ processed.map Prod.fst, processed.map Prod.snd))
      ([], rightArgs0)).1

/-! ## The sentence-text dictionary of `TextReltuples` -/

/-- One Python dict assignment `d[k] = v`: overwrite in place if the key is
present, else append (Python dicts keep the original position of an
overwritten key). -/
def dictInsert {α : Type} (d : List (String × α)) (k : String) (v : α) :
    List (String × α) :=
  if d.any (fun p => p.1 == k) then
    d.map fun p => if p.1 == k then (k, v) else p
  else d ++ [(k, v)]

/-- The loop of `TextReltuples.__init__` that fills `self._dict`: one
assignment per sentence, keyed by the rendered sentence text. -/
def buildDictionary {α : Type} (sents : List (String × α)) : List (String × α) :=
  sents.foldl (fun d p => dictInsert d p.1 p.2) []

/-- Dictionary lookup. -/
def dictLookup {α : Type} (d : List (String × α)) (k : String) : Option α :=
  (d.find? fun p => p.1 == k).map Prod.snd

/-- Modelled from the spec: the intended reading of the produced mapping —
for each sentence text, the triple list of the LAST sentence in document
order that renders to that text. -/
def lastEntryFor {α : Type} (sents : List (String × α)) (k : String) : Option α :=
  (sents.reverse.find? fun p => p.1 == k).map Prod.snd

/-! ## Canonical finite sets and orderings

Python sets of strings and of small ints are modelled as canonically sorted
duplicate-free lists: equality of canonical lists is set equality, the
ascending order matches CPython's rendering of small-int sets, and every
operation below is plain structural recursion (so concrete instances
evaluate inside the kernel). -/

/-- Code-point order on characters (Python string order). -/
def charLt (a b : Char) : Bool := a.toNat < b.toNat

/-- Python's lexicographic string order, on the character lists. -/
def listCharLt : List Char → List Char → Bool
  | [], [] => false
  | [], _ :: _ => true
  | _ :: _, [] => false
  | c :: cs, d :: ds =>
    if charLt c d then true else if charLt d c then false else listCharLt cs ds

/-- Python `a < b` on strings. -/
def strLtB (a b : String) : Bool := listCharLt a.toList b.toList

/-- Insert into a sorted duplicate-free list of naturals. -/
def natInsertSorted (x : Nat) : List Nat → List Nat
  | [] => [x]
  | y :: ys =>
    if x < y then x :: y :: ys else if x = y then y :: ys else y :: natInsertSorted x ys

/-- The canonical (sorted, duplicate-free) form of a list of naturals. -/
def natSetOf (l : List Nat) : List Nat :=
  l.foldl (fun acc x => natInsertSorted x acc) []

/-- Set union on canonical nat sets. -/
def natSetUnion (a b : List Nat) : List Nat := natSetOf (a ++ b)

/-- Set intersection on canonical nat sets. -/
def natSetInter (a b : List Nat) : List Nat := a.filter (b.contains ·)

/-- Insert into a sorted duplicate-free list of strings. -/
def strInsertSorted (x : String) : List String → List String
  | [] => [x]
  | y :: ys =>
    if strLtB x y then x :: y :: ys
    else if x = y then y :: ys
    else y :: strInsertSorted x ys

/-- The canonical form of a list of strings. -/
def strSetOf (l : List String) : List String :=
  l.foldl (fun acc x => strInsertSorted x acc) []

/-- Set union on canonical string sets (the " | "-join of a union of split
sets, rendered canonically). -/
def strSetUnion (a b : List String) : List String := strSetOf (a ++ b)

/-- Set intersection on canonical string sets. -/
def strSetInter (a b : List String) : List String := a.filter (b.contains ·)

/-- Stable insertion into a sorted list: the new element goes before the
first entry it may precede, so elements comparing equal keep their original
relative order, as Python's stable sort does. -/
def insertB {α : Type} (le : α → α → Bool) (x : α) : List α → List α
  | [] => [x]
  | y :: ys => if le x y then x :: y :: ys else y :: insertB le x ys

/-- Stable insertion sort, standing for Python's `sorted`. -/
def sortB {α : Type} (le : α → α → Bool) : List α → List α
  | [] => []
  | x :: xs => insertB le x (sortB le xs)

/-! ## The relation graph model (`RelGraph` over a networkx `MultiDiGraph`)

Nodes and edges live in insertion-ordered association lists, as in the
Python dicts backing networkx.  A node key is the pair of the lemma string
and the sorted cluster list fixed at creation time, standing for the Python
node name "{lemmas} + {str(feat_type)}" (an injective rendering: `+` never
survives `_clean_string`, and CPython renders sets of small ints in
ascending order).  The " | "-joined label/lemma/deprel strings, which the
code only compares for equality, splits and unions, are modelled as finite
sets of their components. -/

/-- A node key: lemma string plus the creation-time cluster set, rendered as
a sorted list. -/
abbrev NodeKey := String × List Nat

/-- An edge key: the two structural literals, or the composite
"{lemmas} + {deprel}". -/
inductive EdgeKey where
  | isA
  | relatesTo
  | rel (lemmas : List String) (deprel : List String)
deriving DecidableEq

instance : Inhabited EdgeKey := ⟨.isA⟩

/-- The label set standing for the literal string "_is_a_". -/
def isALabel : List String := ["_is_a_"]

/-- The label set standing for the literal string "_relates_to_". -/
def relToLabel : List String := ["_relates_to_"]

/-- Node attributes (`lemmas`, `label`, `description`, `weight`, `vector`,
`feat_type`); the `viz` color hints only matter for serialization and are
not modelled. -/
structure NodeAttrs where
  lemmas : String
  label : List String
  description : List String
  weight : Nat
  vector : List Rat
  featType : List Nat
deriving DecidableEq

instance : Inhabited NodeAttrs := ⟨"", [], [], 0, [], []⟩

/-- Edge attributes. -/
structure EdgeAttrs where
  label : List String
  lemmas : List String
  deprel : List String
  description : List String
  weight : Nat
  featType : List Nat
deriving DecidableEq

instance : Inhabited EdgeAttrs := ⟨[], [], [], [], 0, []⟩

/-- An edge identity (source, target, key) in the multigraph. -/
abbrev EdgeTriple := NodeKey × NodeKey × EdgeKey

/-- The graph state of `RelGraph`. -/
structure RelGraphState where
  nodes : List (NodeKey × NodeAttrs)
  edges : List (EdgeTriple × EdgeAttrs)
deriving DecidableEq

/-- Update the first entry with the given key in place (a Python dict holds
one entry per key and overwriting keeps its position). -/
def updFirst {κ α : Type} [BEq κ] : List (κ × α) → κ → (α → α) → List (κ × α)
  | [], _, _ => []
  | p :: rest, k, f =>
    if p.1 == k then (p.1, f p.2) :: rest else p :: updFirst rest k f

/-- Node attribute lookup (`self._graph.nodes[node]`), defaulting for an
absent node exactly like the other total lookups of this model. -/
def nodeAttr (g : RelGraphState) (k : NodeKey) : NodeAttrs :=
  ((g.nodes.find? fun p => p.1 == k).map (·.2)).getD default

/-- Edge attribute lookup (`self._graph[source][target][key]`). -/
def edgeAttr (g : RelGraphState) (e : EdgeTriple) : EdgeAttrs :=
  ((g.edges.find? fun p => p.1 == e).map (·.2)).getD default

/-- `self._graph.has_node`. -/
def hasNode (g : RelGraphState) (k : NodeKey) : Bool :=
  g.nodes.any fun p => p.1 == k

/-- `self._graph.has_edge(source, target, key=key)`. -/
def hasEdgeK (g : RelGraphState) (s t : NodeKey) (k : EdgeKey) : Bool :=
  g.edges.any fun p => p.1 == (s, t, k)

/-- `self._graph.has_edge(source, target)` (any key). -/
def hasEdgeAny (g : RelGraphState) (s t : NodeKey) : Bool :=
  g.edges.any fun p => p.1.1 == s && p.1.2.1 == t

/-- The node keys of the graph in insertion order. -/
def nodeKeys (g : RelGraphState) : List NodeKey :=
  g.nodes.map Prod.fst

/-- `RelGraph.nodes_number`. -/
def nodesNumber (g : RelGraphState) : Nat :=
  g.nodes.length

/-- `RelGraph.edges_number`. -/
def edgesNumber (g : RelGraphState) : Nat :=
  g.edges.length

/-- Sum of all node weights (the quantity of the merge-invariance claim). -/
def totalNodeWeight (g : RelGraphState) : Nat :=
  (g.nodes.map fun p => p.2.weight).sum

/-- Sum of all edge weights. -/
def totalEdgeWeight (g : RelGraphState) : Nat :=
  (g.edges.map fun p => p.2.weight).sum

/-- Elementwise average `(v1 + v2) / 2` of the running-average vector
update in `_add_node`. -/
def vecAvg (v1 v2 : List Rat) : List Rat :=
  List.zipWith (fun a b => (a + b) / 2) v1 v2

/-- The node name "{lemmas} + {str(feat_type)}" computed by `_add_node`. -/
def mkNodeKey (lemmas : String) (feat : List Nat) : NodeKey :=
  (lemmas, natSetOf feat)

/-- `RelGraph._add_node`: create the node, or fold the new sighting into the
existing one (label/description/cluster union, vector averaging, weight
increment).  Returns the updated graph and the computed node key. -/
def addNode (g : RelGraphState) (lemmas : String) (description : List String)
    (label : List String) (weight : Nat) (vector : List Rat)
    (featType : List Nat) : RelGraphState × NodeKey :=
  let key := mkNodeKey lemmas featType
  if hasNode g key then
    ({ g with
        nodes := updFirst g.nodes key fun a =>
          { a with
            label := strSetUnion a.label label
            description := strSetUnion description a.description
            featType := natSetUnion featType a.featType
            vector := vecAvg a.vector vector
            weight := a.weight + weight } },
      key)
  else
    ({ g with nodes := g.nodes ++ [(key, ⟨lemmas, label, description, weight, vector, featType⟩)] },
      key)

/-- The edge key computed by `RelGraph._add_edge`. -/
def mkEdgeKey (label lemmas deprel : List String) : EdgeKey :=
  if label = isALabel then .isA
  else if label = relToLabel then .relatesTo
  else .rel lemmas deprel

/-- `RelGraph._add_edge`: create the edge under the computed key, or fold the
new sighting into the existing one (description/cluster union, weight
increment; label, lemmas and deprel are left unchanged on update). -/
def addEdge (g : RelGraphState) (source target : NodeKey)
    (label lemmas deprel : List String) (description : List String)
    (weight : Nat) (featType : List Nat) : RelGraphState :=
  let key := mkEdgeKey label lemmas deprel
  let e : EdgeTriple := (source, target, key)
  if hasEdgeK g source target key then
    { g with
        edges := updFirst g.edges e fun a =>
          { a with
            description := strSetUnion description a.description
            featType := natSetUnion featType a.featType
            weight := a.weight + weight } }
  else
    { g with edges := g.edges ++ [(e, ⟨label, lemmas, deprel, description, weight, featType⟩)] }

/-- `remove_node`: drop the node and all incident edges. -/
def removeNode (g : RelGraphState) (k : NodeKey) : RelGraphState :=
  { nodes := g.nodes.filter fun p => !(p.1 == k)
    edges := g.edges.filter fun p => !(p.1.1 == k) && !(p.1.2.1 == k) }

/-- `remove_edge` with an explicit key. -/
def removeEdge (g : RelGraphState) (e : EdgeTriple) : RelGraphState :=
  { g with edges := g.edges.filter fun p => !(p.1 == e) }

/-- First-occurrence deduplication, standing for building a Python set and
iterating it (the determinization of this model). -/
def listDedup {α : Type} [BEq α] (l : List α) : List α :=
  l.foldl (fun acc x => if acc.contains x then acc else acc ++ [x]) []

/-- Lexicographic Bool order on `List Nat`, for the stable tie-break. -/
def natListLe : List Nat → List Nat → Bool
  | [], _ => true
  | _ :: _, [] => false
  | a :: as, b :: bs => if a < b then true else if b < a then false else natListLe as bs

/-- The stable total order on node keys used as the Python tie-break on the
node name string. -/
def nodeKeyLe (k1 k2 : NodeKey) : Bool :=
  if strLtB k1.1 k2.1 then true
  else if strLtB k2.1 k1.1 then false
  else natListLe k1.2 k2.2

/-- `sorted(nodes, key=lambda node: (weight, node), reverse=True)`: descending
by weight, ties broken by the stable key order. -/
def sortNodesDesc (g : RelGraphState) (ks : List NodeKey) : List NodeKey :=
  sortB (fun a b =>
    let wa := (nodeAttr g a).weight
    let wb := (nodeAttr g b).weight
    if wb < wa then true else if wa < wb then false else nodeKeyLe b a) ks

/-- The donor-fold step of `_merge_nodes`: `_add_node` of the survivor's
lemmas with the donor's attributes under the merged cluster set, all read
from the live graph. -/
def donorFoldStep (mainNode : NodeKey) (feat : List Nat) (acc : RelGraphState)
    (k : NodeKey) : RelGraphState :=
  (addNode acc (nodeAttr acc mainNode).lemmas (nodeAttr acc k).description
    (nodeAttr acc k).label (nodeAttr acc k).weight (nodeAttr acc k).vector feat).1

/-- The edge re-pointing step of `_merge_nodes`: `_add_edge` of a donor
out-edge at the survivor, under the merged cluster set. -/
def repointStep (mainNode : NodeKey) (feat : List Nat) (acc : RelGraphState)
    (p : EdgeTriple × EdgeAttrs) : RelGraphState :=
  addEdge acc mainNode p.1.2.1 p.2.label p.2.lemmas p.2.deprel p.2.description
    p.2.weight feat

/-- `RelGraph._merge_nodes`.  The survivor is the head of the descending
sort; donor attributes are folded in through `_add_node` under the merged
cluster set; donor out-edges are re-pointed to the survivor (the Python loop
iterates `self._graph.edges(other_nodes)`, which for a directed multigraph
yields only out-edges, so donor in-edges die with the donors; donor edges
are never mutated by the re-pointing adds, whose sources are the survivor,
so reading their attributes from the snapshot is exact); donors are then
removed. -/
def mergeNodes (g : RelGraphState) (ks : List NodeKey) : RelGraphState :=
  match sortNodesDesc g ks with
  | [] => g
  | mainNode :: otherNodes =>
    let feat := otherNodes.foldl (fun acc k => natSetUnion acc (nodeAttr g k).featType)
      (nodeAttr g mainNode).featType
    let g1 := otherNodes.foldl (donorFoldStep mainNode feat) g
    let donorOut := g1.edges.filter fun p => otherNodes.contains p.1.1
    let g2 := donorOut.foldl (repointStep mainNode feat) g1
    otherNodes.foldl removeNode g2

/-- One rewrite of the `_merge_edges` loop: `_add_edge` of the merged
attributes (description and cluster set read live) with the full summed
weight, then removal of the original edge. -/
def mergeEdgeStep (L Lm Dp : List String) (W : Nat) (acc : RelGraphState)
    (e : EdgeTriple) : RelGraphState :=
  let a := edgeAttr acc e
  removeEdge (addEdge acc e.1 e.2.1 L Lm Dp a.description W a.featType) e

/-- `RelGraph._merge_edges`: union the label/lemma/deprel sets, sum the
weights, then rewrite every merged edge position under the shared new key
with the full summed weight and drop the original. -/
def mergeEdges (g : RelGraphState) (es : List EdgeTriple) : RelGraphState :=
  let newLabel := es.foldl (fun acc e => strSetUnion acc (edgeAttr g e).label) []
  let newLemmas := es.foldl (fun acc e => strSetUnion acc (edgeAttr g e).lemmas) []
  let newDeprel := es.foldl (fun acc e => strSetUnion acc (edgeAttr g e).deprel) []
  let newWeight := (es.map fun e => (edgeAttr g e).weight).sum
  es.foldl (mergeEdgeStep newLabel newLemmas newDeprel newWeight) g

/-- Whether an edge key is a verb-relation key (not `_is_a_`/`_relates_to_`),
the test `key not in ["_is_a_", "_relates_to_"]`. -/
def isRelKey : EdgeKey → Bool
  | .rel _ _ => true
  | _ => false

/-- The test `label in ["_is_a_", "_relates_to_"]` on a label set. -/
def isStructuralLabel (l : List String) : Bool :=
  l == isALabel || l == relToLabel

/-! ## Inheritance propagation (`_inherit_relations`) -/

/-- One node visit of the `_inherit_relations` pass: duplicate onto `n` every
non-structural edge incident to an `_is_a_`-predecessor of `n`, unless the
same (endpoint, key) edge already exists.  Returns the graph and whether an
edge was added. -/
def inheritAtNode (g0 : RelGraphState) (n : NodeKey) : RelGraphState × Bool :=
  let preds := listDedup
    ((g0.edges.filter fun p => p.1.2.1 == n && p.1.2.2 == EdgeKey.isA).map fun p => p.1.1)
  let inV := g0.edges.filter fun p => preds.contains p.1.2.1 && isRelKey p.1.2.2
  let outV := g0.edges.filter fun p => preds.contains p.1.1 && isRelKey p.1.2.2
  let step1 := inV.foldl
    (fun (acc : RelGraphState × Bool) p =>
      if hasEdgeK acc.1 p.1.1 n p.1.2.2 then acc
      else
        (addEdge acc.1 p.1.1 n p.2.label p.2.lemmas p.2.deprel p.2.description
          p.2.weight p.2.featType, true))
    (g0, false)
  outV.foldl
    (fun acc p =>
      if hasEdgeK acc.1 n p.1.2.1 p.1.2.2 then acc
      else
        (addEdge acc.1 n p.1.2.1 p.2.label p.2.lemmas p.2.deprel p.2.description
          p.2.weight p.2.featType, true))
    step1

/-- One full pass of the `while modified` loop of `_inherit_relations`. -/
def inheritOnce (g : RelGraphState) : RelGraphState × Bool :=
  (nodeKeys g).foldl
    (fun (acc : RelGraphState × Bool) n =>
      let r := inheritAtNode acc.1 n
      (r.1, acc.2 || r.2))
    (g, false)

/-- `RelGraph._inherit_relations`, fuelled (the Python loop runs until a pass
adds nothing). -/
def inheritRelations (g : RelGraphState) : Nat → RelGraphState
  | 0 => g
  | fuel + 1 =>
    let r := inheritOnce g
    if r.2 then inheritRelations r.1 fuel else r.1

/-! ## Merge candidate search (`merge_relations` helpers) -/

/-- `RelGraph._find_target_merge_candidates`. -/
def findTargetMergeCandidates (g : RelGraphState) (source : NodeKey)
    (key : EdgeKey) : List NodeKey :=
  listDedup
    ((g.edges.filter fun p =>
        p.1.1 == source && p.1.2.2 == key &&
        !isStructuralLabel p.2.label &&
        !(natSetInter (nodeAttr g source).featType (nodeAttr g p.1.2.1).featType == [])).map
      fun p => p.1.2.1)

/-- `RelGraph._find_source_merge_candidates`. -/
def findSourceMergeCandidates (g : RelGraphState) (target : NodeKey)
    (key : EdgeKey) : List NodeKey :=
  listDedup
    ((g.edges.filter fun p =>
        p.1.2.1 == target && p.1.2.2 == key &&
        !isStructuralLabel p.2.label &&
        !(natSetInter (nodeAttr g p.1.1).featType (nodeAttr g target).featType == [])).map
      fun p => p.1.1)

/-- `RelGraph._nodes_distance`: `None` stands for the infinite distance
returned when either vector is all-zero; the scipy cosine distance is the
external parameter `cos`. -/
def nodesDistance (g : RelGraphState) (cos : List Rat → List Rat → Rat)
    (n1 n2 : NodeKey) : Option Rat :=
  let v1 := (nodeAttr g n1).vector
  let v2 := (nodeAttr g n2).vector
  if v1.all (· == 0) || v2.all (· == 0) then none
  else some (cos v1 v2)

/-- `NODE_DISTANCE_THRESHOLD = 0.3`, written as an already-normalized
rational literal. -/
def nodeDistanceThreshold : Rat := ⟨3, 10, by norm_num, by norm_num⟩

/-- The comparison `distance > NODE_DISTANCE_THRESHOLD`, true for the
infinite distance. -/
def distExceedsThreshold : Option Rat → Bool
  | none => true
  | some d => decide (nodeDistanceThreshold < d)

/-- The pair test of the first loop of `_filter_node_merge_candidates`:
directly connected, or provenance sets intersect. -/
def nodeConflict (g : RelGraphState) (n1 n2 : NodeKey) : Bool :=
  hasEdgeAny g n1 n2 ||
  !(strSetInter (nodeAttr g n1).description (nodeAttr g n2).description == [])

/-- The first loop of `_filter_node_merge_candidates`: the outer loop walks a
copy of the input, the inner loop a snapshot of the current set minus the
outer node, discarding both members of every conflicting pair. -/
def discardPass (g : RelGraphState) (nodes : List NodeKey) : List NodeKey :=
  nodes.foldl
    (fun res n1 =>
      (res.filter fun x => !(x == n1)).foldl
        (fun res2 n2 =>
          if nodeConflict g n1 n2 then
            res2.filter fun x => !(x == n1) && !(x == n2)
          else res2)
        res)
    nodes

/-- The representative (`main_node`) that `_filter_node_merge_candidates`
sorts out when at least two candidates survive the conflict pass. -/
def mergeMainOf (g : RelGraphState) (nodes : List NodeKey) : Option NodeKey :=
  let res := discardPass g nodes
  if res.length < 2 then none
  else (sortNodesDesc g res).head?

/-- `RelGraph._filter_node_merge_candidates`. -/
def filterNodeMergeCandidates (g : RelGraphState)
    (cos : List Rat → List Rat → Rat) (nodes : List NodeKey) : List NodeKey :=
  let res := discardPass g nodes
  if res.length < 2 then res
  else
    match sortNodesDesc g res with
    | [] => res
    | mainNode :: otherNodes =>
      otherNodes.foldl
        (fun acc n =>
          if distExceedsThreshold (nodesDistance g cos mainNode n) then
            acc.filter fun x => !(x == n)
          else acc)
        res

/-- `RelGraph._find_nodes_to_merge` with `source` and `key` given. -/
def findNodesToMergeBySource (g : RelGraphState) (cos : List Rat → List Rat → Rat)
    (source : NodeKey) (key : EdgeKey) : List NodeKey :=
  let res := findTargetMergeCandidates g source key
  if res.length < 2 then res else filterNodeMergeCandidates g cos res

/-- `RelGraph._find_nodes_to_merge` with `target` and `key` given. -/
def findNodesToMergeByTarget (g : RelGraphState) (cos : List Rat → List Rat → Rat)
    (target : NodeKey) (key : EdgeKey) : List NodeKey :=
  let res := findSourceMergeCandidates g target key
  if res.length < 2 then res else filterNodeMergeCandidates g cos res

/-- Lexicographic Bool order on `List String`. -/
def strListLe : List String → List String → Bool
  | [], _ => true
  | _ :: _, [] => false
  | a :: as, b :: bs =>
    if strLtB a b then true else if strLtB b a then false else strListLe as bs

/-- A stable total order on label sets, standing for the Python string order
on the joined label used by `keys.sort(key=lambda elem: elem[1:])`. -/
def labelLe (a b : List String) : Bool :=
  strListLe a b

/-- The `(key, cluster, label)` entries collected at the top of
`_find_edges_to_merge`: one entry per cluster of every out-edge of `source`
whose key also connects `source` to `target` and whose label is
non-structural. -/
def edgeMergeEntries (g : RelGraphState) (source target : NodeKey) :
    List (EdgeKey × Nat × List String) :=
  ((g.edges.filter fun p =>
      p.1.1 == source && hasEdgeK g source target p.1.2.2 &&
      !isStructuralLabel p.2.label).map
    fun p => p.2.featType.map fun c => (p.1.2.2, c, p.2.label)).flatten

/-- The sort key `elem[1:]` = (cluster, label). -/
def entryLe (a b : EdgeKey × Nat × List String) : Bool :=
  if a.2.1 < b.2.1 then true
  else if b.2.1 < a.2.1 then false
  else labelLe a.2.2 b.2.2

/-- The pairwise provenance-overlap discard at the end of
`_find_edges_to_merge` (both loops run over snapshots of the current set,
dropping both members of an overlapping pair). -/
def edgePairDiscard (g : RelGraphState) (edges0 : List EdgeTriple) : List EdgeTriple :=
  edges0.foldl
    (fun es e1 =>
      es.foldl
        (fun es2 e2 =>
          if !(e1 == e2) &&
              !(strSetInter (edgeAttr g e1).description (edgeAttr g e2).description
                  == []) then
            es2.filter fun x => !(x == e1) && !(x == e2)
          else es2)
        es)
    edges0

/-- `RelGraph._find_edges_to_merge`: group the entries by cluster (after the
stable (cluster, label) sort), skip clusters that repeat a label or hold a
single entry, take the first eligible cluster, collect every graph edge whose
key belongs to it and whose cluster set holds it, then run the provenance
discard. -/
def findEdgesToMerge (g : RelGraphState) (source target : NodeKey) :
    List EdgeTriple :=
  let entries := sortB entryLe (edgeMergeEntries g source target)
  let clusterGroups := entries.splitBy fun a b => a.2.1 == b.2.1
  match clusterGroups.find? fun grp =>
      grp.length != 1 &&
      (grp.splitBy fun a b => a.2.2 == b.2.2).all fun lg => lg.length == 1 with
  | none => []
  | some grp =>
    let keys := listDedup (grp.map fun e => e.1)
    let cluster := (grp.headD default).2.1
    let edges0 := listDedup
      ((g.edges.filter fun p => keys.contains p.1.2.2 && p.2.featType.contains cluster).map
        fun p => p.1)
    edgePairDiscard g edges0

/-! ## The same-name merge pass and the consolidation loop -/

/-- The grouping of edges by their (source label, edge label, target label)
display triple, in first-occurrence order, as Python dict insertion order
gives it. -/
def labelsGroups (g : RelGraphState) :
    List ((List String × List String × List String) × List EdgeTriple) :=
  g.edges.foldl
    (fun acc p =>
      let lbls := ((nodeAttr g p.1.1).label, p.2.label, (nodeAttr g p.1.2.1).label)
      if acc.any (fun q => q.1 == lbls) then
        updFirst acc lbls (fun l => l ++ [p.1])
      else acc ++ [(lbls, [p.1])])
    []

/-- `RelGraph._find_same_name_nodes_to_merge`: for every label triple borne
by more than one edge, merge the distinct unseen sources (if more than one)
and the distinct unseen targets (if more than one), marking both claimed. -/
def findSameNameNodesToMerge (g : RelGraphState) : List (List NodeKey) :=
  ((labelsGroups g).foldl
    (fun (acc : List (List NodeKey) × List NodeKey) grp =>
      let edgeList := grp.2
      if edgeList.length > 1 then
        let sources := listDedup
          ((edgeList.map fun e => e.1).filter fun s => !(acc.2.contains s))
        let targets := listDedup
          ((edgeList.map fun e => e.2.1).filter fun t => !(acc.2.contains t))
        let acc1 :=
          if sources.length > 1 then (acc.1 ++ [sources], acc.2 ++ sources ++ targets)
          else acc
        if targets.length > 1 then (acc1.1 ++ [targets], acc1.2 ++ sources ++ targets)
        else acc1
      else acc)
    ([], [])).1

/-- What one scan of the edge list in `merge_relations` finds first. -/
inductive MergeFound where
  | nodes (ns : List NodeKey)
  | edges (es : List EdgeTriple)
deriving DecidableEq

/-- The scan over `self._graph.edges` in `merge_relations`: for each edge in
order, first shared-source targets, then shared-target sources, then
parallel edges; the first hit with more than one member wins. -/
def scanList (g : RelGraphState) (cos : List Rat → List Rat → Rat) :
    List (EdgeTriple × EdgeAttrs) → Option MergeFound
  | [] => none
  | p :: rest =>
    let targets := findNodesToMergeBySource g cos p.1.1 p.1.2.2
    if targets.length > 1 then some (.nodes targets)
    else
      let sources := findNodesToMergeByTarget g cos p.1.2.1 p.1.2.2
      if sources.length > 1 then some (.nodes sources)
      else
        let es := findEdgesToMerge g p.1.1 p.1.2.1
        if es.length > 1 then some (.edges es)
        else scanList g cos rest

/-- The scan of one `merge_relations` iteration. -/
def scanForMerges (g : RelGraphState) (cos : List Rat → List Rat → Rat) :
    Option MergeFound :=
  scanList g cos g.edges

/-- `RelGraph.merge_relations`, fuelled: each iteration performs every
same-name merge found at its start, then at most one scan merge, stopping
when the scan finds nothing. -/
def mergeRelationsF (cos : List Rat → List Rat → Rat) :
    Nat → RelGraphState → RelGraphState
  | 0, g => g
  | fuel + 1, g =>
    let g1 := (findSameNameNodesToMerge g).foldl mergeNodes g
    match scanForMerges g1 cos with
    | some (.nodes ns) => mergeRelationsF cos fuel (mergeNodes g1 ns)
    | some (.edges es) => mergeRelationsF cos fuel (mergeEdges g1 es)
    | none => g1

/-! ## Node filtering (`filter_nodes`) -/

/-- The eviction test of `_find_nodes_to_remove`: every edge between the node
and the currently kept set is structural (vacuously true when there are
none). -/
def evictable (g : RelGraphState) (keep : List NodeKey) (k : NodeKey) : Bool :=
  ((g.edges.filter fun p => p.1.1 == k && keep.contains p.1.2.1).all fun p =>
      isStructuralLabel p.2.label) &&
  ((g.edges.filter fun p => p.1.2.1 == k && keep.contains p.1.1).all fun p =>
      isStructuralLabel p.2.label)

/-- Python `set.add`. -/
def setAdd (l : List NodeKey) (x : NodeKey) : List NodeKey :=
  if x ∈ l then l else l ++ [x]

/-- The eviction/promotion loop of `_find_nodes_to_remove`, fuelled: evict
the first kept node whose kept-neighbourhood is all structural and promote
`all_nodes[next_node_index]` (the index the source advances past one node
too many), until a pass finds nothing. -/
def evictLoopF (g : RelGraphState) (allNodes : List NodeKey) :
    Nat → List NodeKey → Nat → List NodeKey
  | 0, keep, _ => keep
  | fuel + 1, keep, nextIdx =>
    match keep.find? fun k => evictable g keep k with
    | none => keep
    | some node =>
      let keep1 := keep.erase node
      if nextIdx < allNodes.length then
        evictLoopF g allNodes fuel (setAdd keep1 (allNodes.getD nextIdx default)) (nextIdx + 1)
      else evictLoopF g allNodes fuel keep1 nextIdx

/-- `sorted(set(nodes), key=weight, reverse=True)`: stable descending weight
order over the node keys. -/
def sortAllNodesByWeight (g : RelGraphState) : List NodeKey :=
  sortB (fun a b => (nodeAttr g b).weight ≤ (nodeAttr g a).weight) (nodeKeys g)

/-- `RelGraph._find_nodes_to_remove` (`2 * |nodes| + 1` fuel strictly
dominates the loop measure, as proved below). -/
def findNodesToRemove (g : RelGraphState) (nNodesToLeave : Nat) : List NodeKey :=
  let allNodes := sortAllNodesByWeight g
  let keep0 := allNodes.take (min nNodesToLeave allNodes.length)
  let nextIdx := min nNodesToLeave allNodes.length + 1
  let keepF := evictLoopF g allNodes (2 * allNodes.length + 1) keep0 nextIdx
  allNodes.filter fun k => !(keepF.contains k)

/-- Removing one node in `_perform_filtering`: bridge every incoming and
outgoing edge pair sharing a label with a direct pred→succ edge carrying the
outgoing edge's attributes (read live, as the source does), then drop the
node. -/
def removeNodeWithBridges (g : RelGraphState) (k : NodeKey) : RelGraphState :=
  let inE := g.edges.filter fun p => p.1.2.1 == k
  let outE := g.edges.filter fun p => p.1.1 == k
  let g1 := inE.foldl
    (fun acc pe =>
      outE.foldl
        (fun acc2 se =>
          if !(se.2.label == pe.2.label) then acc2
          else
            let a := edgeAttr acc2 se.1
            addEdge acc2 pe.1.1 se.1.2.1 a.label a.lemmas a.deprel a.description
              a.weight a.featType)
        acc)
    g
  removeNode g1 k

/-- `RelGraph._perform_filtering`: remove the marked nodes one at a time. -/
def performFiltering (g : RelGraphState) : List NodeKey → RelGraphState
  | [] => g
  | k :: rest => performFiltering (removeNodeWithBridges g k) rest

/-- `RelGraph.filter_nodes`. -/
def filterNodes (g : RelGraphState) (n : Nat) : RelGraphState :=
  performFiltering g (findNodesToRemove g n)

/-! ## Inductive dependency trees (`_get_subtree` on valid trees)

`_get_subtree` recurses along the child pointers; on the single-rooted trees
the parser guarantees, that recursion is exactly structural recursion on the
tree, so it is embedded on an inductive tree type. -/

/-- A dependency (sub)tree: a word id and its child subtrees, in the order
the `children` field yields them. -/
inductive DepTree where
  | node (wid : Nat) (children : List DepTree)

/-- The id at the root of a tree. -/
def DepTree.rootId : DepTree → Nat
  | .node i _ => i

/-- The id multiset of a tree, root first. -/
def DepTree.ids : DepTree → List Nat
  | .node i cs => i :: (cs.attach.map fun c => c.1.ids).flatten
decreasing_by
  have := List.sizeOf_lt_of_mem c.2
  simp only [DepTree.node.sizeOf_spec]
  omega

/-- `SentenceReltuples._get_subtree`: children with smaller id (in child
order), then the word itself, then children with larger id. -/
def DepTree.subtree : DepTree → List Nat
  | .node i cs =>
    (cs.attach.map fun c => if c.1.rootId < i then c.1.subtree else []).flatten
      ++ i :: (cs.attach.map fun c => if i < c.1.rootId then c.1.subtree else []).flatten
decreasing_by
  all_goals
    have := List.sizeOf_lt_of_mem c.2
    simp only [DepTree.node.sizeOf_spec]
    omega

/-- A tree all of whose subtrees span a contiguous id interval (projectivity,
phrased on id sets). -/
inductive DepTree.Projective : DepTree → Prop where
  | mk (i : Nat) (cs : List DepTree) :
      (∀ a c b, a ∈ (DepTree.node i cs).ids → c ∈ (DepTree.node i cs).ids →
        a ≤ b → b ≤ c → b ∈ (DepTree.node i cs).ids) →
      (∀ c ∈ cs, DepTree.Projective c) →
      DepTree.Projective (.node i cs)

/-- A tree whose every `children` list is in strictly ascending root-id
order. -/
inductive DepTree.ChildrenSorted : DepTree → Prop where
  | mk (i : Nat) (cs : List DepTree) :
      List.Pairwise (fun a b => DepTree.rootId a < DepTree.rootId b) cs →
      (∀ c ∈ cs, DepTree.ChildrenSorted c) →
      DepTree.ChildrenSorted (.node i cs)

/-! ## Concrete instances -/

/-- A trivial stand-in for the scipy cosine distance parameter. -/
def cos0 : List Rat → List Rat → Rat := fun _ _ => 0

/-- A trivial stand-in for the word2vec lookup parameter. -/
def w2v0 : List Nat → List Rat := fun _ => []

/-- A three-word sentence "Cats eat fish" (ids 1, 2, 3; index 0 is the
technical root). -/
def sC1 : USentence :=
  ⟨[⟨0, "", "", "", "", 0, [2]⟩,
    ⟨1, "Cats", "cat", "NOUN", "nsubj", 2, []⟩,
    ⟨2, "eat", "eat", "VERB", "root", 0, [1, 3]⟩,
    ⟨3, "fish", "fish", "NOUN", "obj", 2, []⟩]⟩

/-- The single id tuple (subject, verb, object) of `sC1`. -/
def rawC1 : List IdsTriple := [([1], .ids [2], [3])]

/-- A sentence whose verb (id 1) has a direct `xcomp` child (id 2). -/
def sC5 : USentence :=
  ⟨[⟨0, "", "", "", "", 0, [1]⟩,
    ⟨1, "wants", "want", "VERB", "root", 0, [2]⟩,
    ⟨2, "buy", "buy", "VERB", "xcomp", 1, []⟩]⟩

/-- Two parallel non-structural edges between the same endpoint pair, with
disjoint provenance: a graph on which `_merge_edges` is invoked with both
edges. -/
def gC2ce : RelGraphState :=
  { nodes :=
      [ (("xl", [0]), ⟨"xl", ["X"], ["sx"], 1, [], [0]⟩)
      , (("yl", [0]), ⟨"yl", ["Y"], ["sy"], 1, [], [0]⟩) ]
    edges :=
      [ ((("xl", [0]), ("yl", [0]), .rel ["ra"] ["obj"]),
          ⟨["La"], ["ra"], ["obj"], ["sa"], 2, [0]⟩)
      , ((("xl", [0]), ("yl", [0]), .rel ["rb"] ["iobj"]),
          ⟨["Lb"], ["rb"], ["iobj"], ["sb"], 3, [0]⟩) ] }

/-- The two parallel edges of `gC2ce`. -/
def esC2 : List EdgeTriple :=
  [ (("xl", [0]), ("yl", [0]), .rel ["ra"] ["obj"])
  , (("xl", [0]), ("yl", [0]), .rel ["rb"] ["iobj"]) ]

/-- A graph where merging the first two nodes (disjoint cluster sets, so the
computed survivor key is fresh) leaves both cardinalities unchanged: the
fresh key node replaces the removed donor and the donor's out-edge is
re-pointed one-for-one. -/
def gC8ce : RelGraphState :=
  { nodes :=
      [ (("xa", [1]), ⟨"xa", ["A"], ["s1"], 2, [], [1]⟩)
      , (("xb", [2]), ⟨"xb", ["B"], ["s2"], 1, [], [2]⟩)
      , (("xc", [9]), ⟨"xc", ["C"], ["s3"], 1, [], [9]⟩) ]
    edges :=
      [ ((("xb", [2]), ("xc", [9]), .rel ["r"] ["obj"]),
          ⟨["R"], ["r"], ["obj"], ["s2"], 1, [2]⟩) ] }

/-- Two same-label edge groups that share the node `blem`: the first group's
merge claims `blem` into the seen set, deferring the second group, and the
scan then finds nothing, so the first `merge_relations` run stops with the
second group still unmerged. -/
def gC7 : RelGraphState :=
  { nodes :=
      [ (("a1lem", [1]), ⟨"a1lem", ["A"], ["s1"], 2, [], [1]⟩)
      , (("a2lem", [1]), ⟨"a2lem", ["A"], ["s2"], 1, [], [1]⟩)
      , (("blem", [3]), ⟨"blem", ["B"], ["s3"], 3, [], [3]⟩)
      , (("clem", [4]), ⟨"clem", ["C"], ["s4"], 1, [], [4]⟩)
      , (("elem", [3]), ⟨"elem", ["B"], ["s5"], 1, [], [3]⟩) ]
    edges :=
      [ ((("a1lem", [1]), ("blem", [3]), .rel ["l1"] ["obj"]),
          ⟨["L"], ["l1"], ["obj"], ["s1"], 1, [1]⟩)
      , ((("a2lem", [1]), ("blem", [3]), .rel ["l2"] ["obj"]),
          ⟨["L"], ["l2"], ["obj"], ["s2"], 1, [1]⟩)
      , ((("clem", [4]), ("blem", [3]), .rel ["m1"] ["obj"]),
          ⟨["L2"], ["m1"], ["obj"], ["s4"], 1, [10]⟩)
      , ((("clem", [4]), ("elem", [3]), .rel ["m2"] ["obj"]),
          ⟨["L2"], ["m2"], ["obj"], ["s5"], 1, [11]⟩) ] }

/-- A graph whose top-weight node carries only a non-structural self-loop:
after filtering to budget 2 it is the only retained node. -/
def gC6 : RelGraphState :=
  { nodes :=
      [ (("A", [0]), ⟨"A", ["A"], ["s0"], 5, [], [0]⟩)
      , (("B", [0]), ⟨"B", ["B"], ["s1"], 4, [], [0]⟩)
      , (("C", [0]), ⟨"C", ["C"], ["s2"], 3, [], [0]⟩) ]
    edges :=
      [ ((("A", [0]), ("A", [0]), .rel ["ra"] ["obj"]),
          ⟨["RA"], ["ra"], ["obj"], ["s0"], 1, [0]⟩)
      , ((("B", [0]), ("C", [0]), .rel ["rb"] ["obj"]),
          ⟨["RB"], ["rb"], ["obj"], ["s1"], 1, [0]⟩) ] }

/-- Five nodes of descending weight 5..1; the top node hangs off the second
by a structural edge only, so it is evicted; the second and fourth are
joined non-structurally.  Budget 2 exercises the promotion step. -/
def gC9 : RelGraphState :=
  { nodes :=
      [ (("n0", [0]), ⟨"n0", ["N0"], ["s0"], 5, [], [0]⟩)
      , (("n1", [0]), ⟨"n1", ["N1"], ["s1"], 4, [], [0]⟩)
      , (("n2", [0]), ⟨"n2", ["N2"], ["s2"], 3, [], [0]⟩)
      , (("n3", [0]), ⟨"n3", ["N3"], ["s3"], 2, [], [0]⟩)
      , (("n4", [0]), ⟨"n4", ["N4"], ["s4"], 1, [], [0]⟩) ]
    edges :=
      [ ((("n0", [0]), ("n1", [0]), .isA),
          ⟨["_is_a_"], ["_is_a_"], ["x"], ["s0"], 1, [0]⟩)
      , ((("n1", [0]), ("n2", [0]), .rel ["r1"] ["obj"]),
          ⟨["R1"], ["r1"], ["obj"], ["s1"], 1, [0]⟩)
      , ((("n1", [0]), ("n3", [0]), .rel ["r2"] ["obj"]),
          ⟨["R2"], ["r2"], ["obj"], ["s3"], 1, [0]⟩) ] }

/-- The merged cluster set computed at the top of `_merge_nodes`. -/
def mergedFeatOf (g : RelGraphState) (ks : List NodeKey) : List Nat :=
  match sortNodesDesc g ks with
  | [] => []
  | mainNode :: otherNodes =>
    otherNodes.foldl (fun acc k => natSetUnion acc (nodeAttr g k).featType)
      (nodeAttr g mainNode).featType

/-- The node key `_add_node` computes for every donor fold of
`_merge_nodes`: the survivor's lemmas under the merged cluster set. -/
def mergedNodeKeyOf (g : RelGraphState) (ks : List NodeKey) : NodeKey :=
  match sortNodesDesc g ks with
  | [] => ("", [])
  | mainNode :: _ => mkNodeKey (nodeAttr g mainNode).lemmas (mergedFeatOf g ks)

/-- The shared key `_merge_edges` computes for the rewritten edges. -/
def mergedEdgeKeyOf (g : RelGraphState) (es : List EdgeTriple) : EdgeKey :=
  mkEdgeKey (es.foldl (fun acc e => strSetUnion acc (edgeAttr g e).label) [])
    (es.foldl (fun acc e => strSetUnion acc (edgeAttr g e).lemmas) [])
    (es.foldl (fun acc e => strSetUnion acc (edgeAttr g e).deprel) [])

/-- The summed weight `_merge_edges` gives every rewritten edge. -/
def mergedWeightOf (g : RelGraphState) (es : List EdgeTriple) : Nat :=
  (es.map fun e => (edgeAttr g e).weight).sum

/-- Two unconnected candidate nodes with disjoint provenance and nonzero
vectors, for exercising `_filter_node_merge_candidates`. -/
def gC4w : RelGraphState :=
  { nodes :=
      [ (("p", [0]), ⟨"p", ["P"], ["sp"], 2, [1], [0]⟩)
      , (("q", [0]), ⟨"q", ["Q"], ["sq"], 1, [1], [0]⟩) ]
    edges := [] }

/-! # Theorems -/

/-- C1: every tuple emitted by the `SentenceReltuples` pipeline has a rendered
left-argument string different from its rendered right-argument string, and
comes from a raw id tuple neither of whose arguments is dropped-worthy: an
argument whose lemmas all lie in the stopword set, or which is a single
one-letter alphabetic lemma, makes `_is_stopwords` hold and the tuple is
discarded before rendering. -/
theorem C1_emitted_tuple_invariant (s : USentence) (stop : List String)
    (w2v : List Nat → List Rat) (raw : List IdsTriple) (rt : Reltuple)
    (hmem : rt ∈ sentenceReltuplesOf s stop w2v raw) :
    rt.left_arg ≠ rt.right_arg ∧
      ∃ t ∈ raw, toTuple s w2v t = rt ∧
        isStopwords s stop t.1 = false ∧ isStopwords s stop t.2.2 = false := by
  unfold sentenceReltuplesOf at hmem
  simp only [List.mem_filter, List.mem_map] at hmem
  obtain ⟨⟨t, ht, hrt⟩, hneq⟩ := hmem
  simp only [List.mem_filter, Bool.and_eq_true, Bool.not_eq_true'] at ht
  refine ⟨?_, t, ht.1, hrt, ht.2.1, ht.2.2⟩
  intro h
  rw [bne_iff_ne] at hneq
  exact hneq h

/-- Witness for C1 on the concrete sentence "Cats eat fish". -/
theorem C1_emitted_tuple_invariant_witness :
    (toTuple sC1 w2v0 ([1], .ids [2], [3]) ∈
        sentenceReltuplesOf sC1 ["the"] w2v0 rawC1) ∧
      ((toTuple sC1 w2v0 ([1], .ids [2], [3])).left_arg ≠
          (toTuple sC1 w2v0 ([1], .ids [2], [3])).right_arg ∧
        ∃ t ∈ rawC1, toTuple sC1 w2v0 t = toTuple sC1 w2v0 ([1], .ids [2], [3]) ∧
          isStopwords sC1 ["the"] t.1 = false ∧
          isStopwords sC1 ["the"] t.2.2 = false) :=
  ⟨by decide, C1_emitted_tuple_invariant sC1 ["the"] w2v0 rawC1 _ (by decide)⟩

/-- C5: a verb with a direct child attached by `xcomp` yields no tuples from
`_get_verb_reltuples`: the controlling verb emits nothing at its own level. -/
theorem C5_xcomp_verb_skipped (s : USentence) (fuel : Nat) (verb : UWord)
    (h : ∃ cid ∈ verb.children, (s.word cid).deprel = "xcomp") :
    getVerbReltuples s fuel verb = [] := by
  unfold getVerbReltuples
  have hany : (verb.children.any fun cid => (s.word cid).deprel == "xcomp") = true := by
    obtain ⟨cid, hc, hd⟩ := h
    exact List.any_eq_true.mpr ⟨cid, hc, by simp [hd]⟩
  simp [hany]

/-- Witness for C5 on the concrete controlled-verb sentence. -/
theorem C5_xcomp_verb_skipped_witness :
    (∃ cid ∈ (sC5.word 1).children, (sC5.word cid).deprel = "xcomp") ∧
      getVerbReltuples sC5 7 (sC5.word 1) = [] :=
  ⟨by decide, C5_xcomp_verb_skipped sC5 7 (sC5.word 1) (by decide)⟩

/-- The lookup of the overwrite-map of `dictInsert` at a key other than the
overwritten one is unchanged. -/
theorem find?_overwrite_ne {α : Type} (d : List (String × α)) (k' k : String)
    (v : α) (hne : k ≠ k') :
    (d.map fun p => if p.1 == k' then (k', v) else p).find? (fun p => p.1 == k) =
      d.find? fun p => p.1 == k := by
  induction d with
  | nil => rfl
  | cons p rest ih =>
    rw [List.map_cons]
    by_cases hp : p.1 = k'
    · rw [if_pos (by simp [hp]),
        @List.find?_cons_of_neg _ (fun q => q.1 == k) (k', v) _
          (by simp; exact fun h => hne h.symm),
        @List.find?_cons_of_neg _ (fun q => q.1 == k) p _
          (by simp [hp]; exact fun h => hne h.symm)]
      exact ih
    · rw [if_neg (by simp [hp])]
      cases h2 : (p.1 == k) with
      | true =>
        rw [@List.find?_cons_of_pos _ (fun q => q.1 == k) p _ h2,
          @List.find?_cons_of_pos _ (fun q => q.1 == k) p _ h2]
      | false =>
        rw [@List.find?_cons_of_neg _ (fun q => q.1 == k) p _ (by simp [h2]),
          @List.find?_cons_of_neg _ (fun q => q.1 == k) p _ (by simp [h2])]
        exact ih

/-- The lookup of the overwrite-map of `dictInsert` at the overwritten key
finds the new value exactly when the key was present. -/
theorem find?_overwrite_self {α : Type} (d : List (String × α)) (k' : String)
    (v : α) :
    (d.map fun p => if p.1 == k' then (k', v) else p).find? (fun p => p.1 == k') =
      if (d.any fun p => p.1 == k') then some (k', v) else none := by
  induction d with
  | nil => rfl
  | cons p rest ih =>
    rw [List.map_cons, List.any_cons]
    by_cases hp : p.1 = k'
    · rw [if_pos (by simp [hp]),
        @List.find?_cons_of_pos _ (fun q => q.1 == k') (k', v) _ (by simp),
        if_pos (by simp [hp])]
    · have h1 : (p.1 == k') = false := by simp [hp]
      rw [if_neg (by simp [hp]),
        @List.find?_cons_of_neg _ (fun q => q.1 == k') p _ (by simp [h1]), h1,
        Bool.false_or]
      exact ih

/-- One dict assignment either overwrites the looked-up key or leaves the
lookup unchanged. -/
theorem dictLookup_dictInsert {α : Type} (d : List (String × α)) (k' k : String)
    (v : α) :
    dictLookup (dictInsert d k' v) k = if k = k' then some v else dictLookup d k := by
  unfold dictLookup dictInsert
  by_cases hany : (d.any fun p => p.1 == k') = true
  · rw [if_pos hany]
    by_cases hk : k = k'
    · subst hk
      rw [find?_overwrite_self, if_pos hany, if_pos rfl]
      rfl
    · rw [find?_overwrite_ne d k' k v hk, if_neg hk]
  · have hany' : (d.any fun p => p.1 == k') = false :=
      Bool.not_eq_true _ ▸ Bool.of_not_eq_true hany
    rw [if_neg hany, List.find?_append]
    by_cases hk : k = k'
    · subst hk
      have hnone : (d.find? fun p => p.1 == k) = none := by
        rw [List.find?_eq_none]
        intro x hx hxk
        exact hany (List.any_eq_true.mpr ⟨x, hx, hxk⟩)
      rw [hnone, if_pos rfl]
      simp [List.find?]
    · have hsingle : ([(k', v)].find? fun p => p.1 == k) = none := by
        rw [List.find?_eq_none]
        intro x hx hxk
        rw [List.mem_singleton] at hx
        subst hx
        have : k' = k := by simpa using hxk
        exact hk this.symm
      rw [hsingle, if_neg hk, Option.or_none]

/-- C10: the sentence-text dictionary of `TextReltuples` is keyed by rendered
sentence text, and a later sentence with the same text overwrites the
earlier one: the lookup always yields the last entry for the text. -/
theorem C10_dictionary_last_wins {α : Type} (sents : List (String × α))
    (k : String) :
    dictLookup (buildDictionary sents) k = lastEntryFor sents k := by
  induction sents using List.reverseRecOn with
  | nil => rfl
  | append_singleton l p ih =>
    have hb : buildDictionary (l ++ [p]) = dictInsert (buildDictionary l) p.1 p.2 := by
      unfold buildDictionary
      rw [List.foldl_append]
      rfl
    rw [hb, dictLookup_dictInsert]
    unfold lastEntryFor
    rw [List.reverse_append]
    simp only [List.reverse_cons, List.reverse_nil, List.nil_append,
      List.singleton_append, List.find?_cons]
    by_cases hk : k = p.1
    · have : (p.1 == k) = true := by simp [hk]
      simp [this, hk]
    · have : (p.1 == k) = false := by simp; exact fun h => hk h.symm
      simp only [this, cond_false, if_neg hk]
      exact ih

/-- C9 (the off-by-one): on `gC9` with budget 2, the top node is evicted
(all its kept edges are structural), but the promotion index starts one past
the budget cutoff: the next-highest-weight unkept node `n2` (weight 3) is
skipped and removed while the strictly lighter `n3` (weight 2) is promoted
and retained, against the next-highest-weight rule. -/
theorem C9_offbyone_promotion :
    findNodesToRemove gC9 2 = [("n0", [0]), ("n2", [0]), ("n4", [0])] ∧
      (nodeAttr gC9 ("n2", [0])).weight = 3 ∧
      (nodeAttr gC9 ("n3", [0])).weight = 2 ∧
      ("n3", [0]) ∉ findNodesToRemove gC9 2 := by
  decide

/-- C2 counterexample: `_merge_edges` on the two parallel edges of `gC2ce`
changes the total edge weight (5 becomes 10: every rewritten edge receives
the full summed weight). -/
theorem C2_counterexample :
    totalEdgeWeight (mergeEdges gC2ce esC2) ≠ totalEdgeWeight gC2ce := by
  decide

/-- C8 counterexample: a node-merge step that strictly decreases neither the
node count nor the edge count — the donor is really merged away, but a fresh
node under the survivor's lemmas and the merged cluster set replaces it
one-for-one, and its out-edge is re-pointed one-for-one. -/
theorem C8_counterexample :
    nodesNumber (mergeNodes gC8ce [("xa", [1]), ("xb", [2])]) = nodesNumber gC8ce ∧
      edgesNumber (mergeNodes gC8ce [("xa", [1]), ("xb", [2])]) = edgesNumber gC8ce ∧
      hasNode (mergeNodes gC8ce [("xa", [1]), ("xb", [2])]) ("xb", [2]) = false := by
  decide

/-- C7 counterexample: the first consolidation run on `gC7` merges one
same-name group, claims the shared node into the seen set and defers the
second group; the scan then finds nothing, so the run stops.  The second run
merges the deferred group, so the node counts after the two runs differ. -/
theorem C7_counterexample :
    nodesNumber (mergeRelationsF cos0 5 (mergeRelationsF cos0 5 gC7)) ≠
      nodesNumber (mergeRelationsF cos0 5 gC7) := by
  decide

/-- C6 counterexample: `gC6` has three nodes (at least the budget 2), yet
after `filter_nodes(2)` the single retained node's only non-structural edge
is a self-loop — it is not connected to ANOTHER retained node, against the
claim as stated. -/
theorem C6_counterexample :
    2 ≤ nodesNumber gC6 ∧
      nodeKeys (filterNodes gC6 2) = [("A", [0])] ∧
      ∀ p ∈ (filterNodes gC6 2).edges,
        isStructuralLabel p.2.label = false →
        ¬((p.1.1 = ("A", [0]) ∧ p.1.2.1 ≠ ("A", [0])) ∨
          (p.1.2.1 = ("A", [0]) ∧ p.1.1 ≠ ("A", [0]))) := by
  decide

/-! ## C3: argument-span ordering of `_get_subtree` -/

/-- Unfolding `DepTree.ids` without the termination `attach`. -/
theorem DepTree.ids_node (i : Nat) (cs : List DepTree) :
    (DepTree.node i cs).ids = i :: (cs.map DepTree.ids).flatten := by
  rw [DepTree.ids]
  congr 1
  congr 1
  exact List.attach_map_coe cs DepTree.ids

/-- Unfolding `DepTree.subtree` without the termination `attach`. -/
theorem DepTree.subtree_node (i : Nat) (cs : List DepTree) :
    (DepTree.node i cs).subtree =
      (cs.map fun c => if c.rootId < i then c.subtree else []).flatten
        ++ i :: (cs.map fun c => if i < c.rootId then c.subtree else []).flatten := by
  rw [DepTree.subtree]
  rw [List.attach_map_coe cs fun c => if c.rootId < i then c.subtree else [],
    List.attach_map_coe cs fun c => if i < c.rootId then c.subtree else []]

/-- Induction over a tree with the hypothesis available on every child. -/
theorem DepTree.strongInd (P : DepTree → Prop)
    (h : ∀ i cs, (∀ c ∈ cs, P c) → P (.node i cs)) : ∀ t, P t := fun t =>
  DepTree.rec (motive_1 := P) (motive_2 := fun l => ∀ c ∈ l, P c)
    (fun i cs ih => h i cs ih)
    (fun c hc => absurd hc (List.not_mem_nil c))
    (fun c cs hc hcs x hx => by
      rcases List.mem_cons.mp hx with h1 | h2
      · exact h1 ▸ hc
      · exact hcs x h2)
    t

/-- The root id is among the tree's ids. -/
theorem DepTree.rootId_mem_ids (t : DepTree) : t.rootId ∈ t.ids := by
  cases t with
  | node i cs => rw [DepTree.ids_node]; exact List.mem_cons_self _ _

/-- The interval property of a projective tree's own id list. -/
theorem DepTree.Projective.interval {t : DepTree} (h : t.Projective) :
    ∀ a c b, a ∈ t.ids → c ∈ t.ids → a ≤ b → b ≤ c → b ∈ t.ids := by
  cases h with
  | mk i cs hint hcs => exact hint

/-- Projectivity passes to children. -/
theorem DepTree.Projective.childProjective {t : DepTree} (h : t.Projective) :
    ∀ {i cs}, t = .node i cs → ∀ c ∈ cs, DepTree.Projective c := by
  cases h with
  | mk i cs hint hcs =>
    intro i' cs' heq
    cases heq
    exact hcs

/-- The sortedness of the root's child list. -/
theorem DepTree.ChildrenSorted.pairwise {t : DepTree} (h : t.ChildrenSorted) :
    ∀ {i cs}, t = .node i cs →
      List.Pairwise (fun a b => DepTree.rootId a < DepTree.rootId b) cs := by
  cases h with
  | mk i cs hp hcs =>
    intro i' cs' heq
    cases heq
    exact hp

/-- Child-sortedness passes to children. -/
theorem DepTree.ChildrenSorted.childSorted {t : DepTree} (h : t.ChildrenSorted) :
    ∀ {i cs}, t = .node i cs → ∀ c ∈ cs, DepTree.ChildrenSorted c := by
  cases h with
  | mk i cs hp hcs =>
    intro i' cs' heq
    cases heq
    exact hcs

/-- Splitting the duplicate-freeness of a node's id list into its parts. -/
theorem depTreeNodupParts (i : Nat) (cs : List DepTree)
    (hnd : (DepTree.node i cs).ids.Nodup) :
    i ∉ (cs.map DepTree.ids).flatten ∧
      (∀ c ∈ cs, c.ids.Nodup) ∧
      List.Pairwise (fun c1 c2 => ∀ x ∈ DepTree.ids c1, x ∉ DepTree.ids c2) cs := by
  rw [DepTree.ids_node] at hnd
  rcases List.nodup_cons.mp hnd with ⟨hi, hfl⟩
  rw [List.nodup_flatten] at hfl
  refine ⟨hi, ?_, ?_⟩
  · intro c hc
    exact hfl.1 _ (List.mem_map_of_mem _ hc)
  · have hp := (List.pairwise_map.mp hfl.2)
    exact hp.imp fun h x hx hx2 => h hx hx2

/-- On duplicate-free trees, `_get_subtree` visits exactly the tree's ids. -/
theorem DepTree.mem_subtree_iff : ∀ (t : DepTree), t.ids.Nodup →
    ∀ x, x ∈ t.subtree ↔ x ∈ t.ids := by
  refine DepTree.strongInd
    (fun t => t.ids.Nodup → ∀ x, (x ∈ t.subtree ↔ x ∈ t.ids)) ?_
  intro i cs IH hnd x
  obtain ⟨hi, hcnd, hdisj⟩ := depTreeNodupParts i cs hnd
  have hne : ∀ c ∈ cs, c.rootId ≠ i := by
    intro c hc heq
    exact hi (List.mem_flatten.mpr
      ⟨c.ids, List.mem_map_of_mem _ hc, heq ▸ c.rootId_mem_ids⟩)
  rw [DepTree.subtree_node, DepTree.ids_node]
  simp only [List.mem_append, List.mem_cons, List.mem_flatten, List.mem_map]
  constructor
  · rintro (⟨l, ⟨c, hc, rfl⟩, hx⟩ | rfl | ⟨l, ⟨c, hc, rfl⟩, hx⟩)
    · by_cases h : c.rootId < i
      · rw [if_pos h] at hx
        exact Or.inr ⟨c.ids, ⟨c, hc, rfl⟩, (IH c hc (hcnd c hc) x).mp hx⟩
      · rw [if_neg h] at hx
        cases hx
    · exact Or.inl rfl
    · by_cases h : i < c.rootId
      · rw [if_pos h] at hx
        exact Or.inr ⟨c.ids, ⟨c, hc, rfl⟩, (IH c hc (hcnd c hc) x).mp hx⟩
      · rw [if_neg h] at hx
        cases hx
  · rintro (rfl | ⟨l, ⟨c, hc, rfl⟩, hx⟩)
    · exact Or.inr (Or.inl rfl)
    · rcases Nat.lt_or_ge c.rootId i with h | h
      · refine Or.inl ⟨_, ⟨c, hc, rfl⟩, ?_⟩
        rw [if_pos h]
        exact (IH c hc (hcnd c hc) x).mpr hx
      · have h' : i < c.rootId := lt_of_le_of_ne h fun e => hne c hc e.symm
        refine Or.inr (Or.inr ⟨_, ⟨c, hc, rfl⟩, ?_⟩)
        rw [if_pos h']
        exact (IH c hc (hcnd c hc) x).mpr hx

/-- In a projective tree every id below a left child stays below the root id. -/
theorem depTreeIdsBoundLeft (i : Nat) (cs : List DepTree)
    (hnd : (DepTree.node i cs).ids.Nodup)
    (hproj : DepTree.Projective (.node i cs)) :
    ∀ c ∈ cs, c.rootId < i → ∀ x ∈ c.ids, x < i := by
  intro c hc hlt x hx
  by_contra hge
  push_neg at hge
  have hint := (hproj.childProjective rfl c hc).interval c.rootId x i c.rootId_mem_ids hx
    (le_of_lt hlt) hge
  obtain ⟨hi, _, _⟩ := depTreeNodupParts i cs hnd
  exact hi (List.mem_flatten.mpr ⟨c.ids, List.mem_map_of_mem _ hc, hint⟩)

/-- In a projective tree every id below a right child stays above the root id. -/
theorem depTreeIdsBoundRight (i : Nat) (cs : List DepTree)
    (hnd : (DepTree.node i cs).ids.Nodup)
    (hproj : DepTree.Projective (.node i cs)) :
    ∀ c ∈ cs, i < c.rootId → ∀ x ∈ c.ids, i < x := by
  intro c hc hlt x hx
  by_contra hge
  push_neg at hge
  have hint := (hproj.childProjective rfl c hc).interval x c.rootId i hx c.rootId_mem_ids
    hge (le_of_lt hlt)
  obtain ⟨hi, _, _⟩ := depTreeNodupParts i cs hnd
  exact hi (List.mem_flatten.mpr ⟨c.ids, List.mem_map_of_mem _ hc, hint⟩)

/-- Disjoint projective subtrees with ordered roots have fully ordered ids. -/
theorem depTreeIdsCross (c1 c2 : DepTree) (h1 : c1.Projective) (h2 : c2.Projective)
    (hdisj : ∀ x ∈ c1.ids, x ∉ c2.ids) (hlt : c1.rootId < c2.rootId) :
    ∀ x ∈ c1.ids, ∀ y ∈ c2.ids, x < y := by
  intro x hx y hy
  by_contra hge
  push_neg at hge
  rcases Nat.lt_or_ge x c2.rootId with hxr | hxr
  · have : x ∈ c2.ids := h2.interval y c2.rootId x hy c2.rootId_mem_ids hge
      (le_of_lt hxr)
    exact hdisj x hx this
  · have : c2.rootId ∈ c1.ids := h1.interval c1.rootId x c2.rootId
      c1.rootId_mem_ids hx (le_of_lt hlt) hxr
    exact hdisj c2.rootId this c2.rootId_mem_ids

/-- One side of the `_get_subtree` concatenation is sorted. -/
theorem depTreeSideSorted (i : Nat) (cs : List DepTree)
    (hnd : (DepTree.node i cs).ids.Nodup)
    (hproj : DepTree.Projective (.node i cs))
    (hsort : DepTree.ChildrenSorted (.node i cs))
    (IH : ∀ c ∈ cs, c.ids.Nodup → c.Projective → c.ChildrenSorted →
      List.Sorted (· < ·) c.subtree)
    (f : DepTree → List Nat)
    (hf : ∀ c ∈ cs, f c = c.subtree ∨ f c = []) :
    List.Pairwise (· < ·) (cs.map f).flatten := by
  obtain ⟨hi, hcnd, hdisj⟩ := depTreeNodupParts i cs hnd
  rw [List.pairwise_flatten]
  constructor
  · intro l hl
    rw [List.mem_map] at hl
    obtain ⟨c, hc, rfl⟩ := hl
    rcases hf c hc with h | h
    · rw [h]
      exact IH c hc (hcnd c hc) (hproj.childProjective rfl c hc) (hsort.childSorted rfl c hc)
    · rw [h]
      exact List.Pairwise.nil
  · rw [List.pairwise_map]
    have hcomb := (hsort.pairwise rfl).and hdisj
    refine hcomb.imp_of_mem ?_
    intro c1 c2 h1m h2m hcb x hx y hy
    have hx1 : x ∈ c1.ids := by
      rcases hf c1 h1m with h | h
      · exact (DepTree.mem_subtree_iff c1 (hcnd c1 h1m) x).mp (h ▸ hx)
      · rw [h] at hx
        cases hx
    have hy2 : y ∈ c2.ids := by
      rcases hf c2 h2m with h | h
      · exact (DepTree.mem_subtree_iff c2 (hcnd c2 h2m) y).mp (h ▸ hy)
      · rw [h] at hy
        cases hy
    exact depTreeIdsCross c1 c2 (hproj.childProjective rfl c1 h1m) (hproj.childProjective rfl c2 h2m)
      hcb.2 hcb.1 x hx1 y hy2

/-- C3 (amended): for a valid (duplicate-free) dependency tree that is
projective (every subtree spans a contiguous id interval) and whose child
lists are visited in ascending root-id order, `_get_subtree` returns a
strictly ascending id list.  The claim's "regardless of the shape of the
tree or the order in which children are visited" fails (see the
counterexample); this projectivity/child-order proviso is what the code
actually guarantees. -/
theorem C3_amended_subtree_sorted : ∀ (t : DepTree), t.ids.Nodup →
    t.Projective → t.ChildrenSorted → List.Sorted (· < ·) t.subtree := by
  refine DepTree.strongInd
    (fun t => t.ids.Nodup → t.Projective → t.ChildrenSorted →
      List.Sorted (· < ·) t.subtree) ?_
  intro i cs IH hnd hproj hsort
  obtain ⟨hi, hcnd, hdisj⟩ := depTreeNodupParts i cs hnd
  rw [DepTree.subtree_node]
  have hLx : ∀ x ∈ (cs.map fun c =>
      if c.rootId < i then c.subtree else []).flatten, x < i := by
    intro x hx
    rw [List.mem_flatten] at hx
    obtain ⟨l, hl, hxl⟩ := hx
    rw [List.mem_map] at hl
    obtain ⟨c, hc, rfl⟩ := hl
    by_cases h : c.rootId < i
    · rw [if_pos h] at hxl
      exact depTreeIdsBoundLeft i cs hnd hproj c hc h x
        ((DepTree.mem_subtree_iff c (hcnd c hc) x).mp hxl)
    · rw [if_neg h] at hxl
      cases hxl
  have hRy : ∀ y ∈ (cs.map fun c =>
      if i < c.rootId then c.subtree else []).flatten, i < y := by
    intro y hy
    rw [List.mem_flatten] at hy
    obtain ⟨l, hl, hyl⟩ := hy
    rw [List.mem_map] at hl
    obtain ⟨c, hc, rfl⟩ := hl
    by_cases h : i < c.rootId
    · rw [if_pos h] at hyl
      exact depTreeIdsBoundRight i cs hnd hproj c hc h y
        ((DepTree.mem_subtree_iff c (hcnd c hc) y).mp hyl)
    · rw [if_neg h] at hyl
      cases hyl
  show List.Pairwise (· < ·) _
  rw [List.pairwise_append]
  refine ⟨?_, ?_, ?_⟩
  · exact depTreeSideSorted i cs hnd hproj hsort IH _ fun c hc => by
      by_cases h : c.rootId < i
      · rw [if_pos h]
        exact Or.inl rfl
      · rw [if_neg h]
        exact Or.inr rfl
  · rw [List.pairwise_cons]
    refine ⟨hRy, ?_⟩
    exact depTreeSideSorted i cs hnd hproj hsort IH _ fun c hc => by
      by_cases h : i < c.rootId
      · rw [if_pos h]
        exact Or.inl rfl
      · rw [if_neg h]
        exact Or.inr rfl
  · intro x hx y hy
    rcases List.mem_cons.mp hy with rfl | hyR
    · exact hLx x hx
    · exact lt_trans (hLx x hx) (hRy y hyR)

/-- C3 counterexample: on the valid but non-projective tree with root 2,
child 1 and grandchild 3, `_get_subtree` returns [1, 3, 2], which is not in
ascending order. -/
theorem C3_counterexample :
    ¬ List.Sorted (· < ·)
      (DepTree.subtree (DepTree.node 2 [DepTree.node 1 [DepTree.node 3 []]])) := by
  have h : DepTree.subtree (DepTree.node 2 [DepTree.node 1 [DepTree.node 3 []]]) =
      [1, 3, 2] := by
    simp [DepTree.subtree_node, DepTree.rootId]
  rw [h]
  decide

/-- Witness for the amended C3 on a concrete projective tree. -/
theorem C3_amended_subtree_sorted_witness :
    (DepTree.node 2 [DepTree.node 1 [], DepTree.node 3 []]).ids.Nodup ∧
      DepTree.Projective (DepTree.node 2 [DepTree.node 1 [], DepTree.node 3 []]) ∧
      DepTree.ChildrenSorted (DepTree.node 2 [DepTree.node 1 [], DepTree.node 3 []]) ∧
      List.Sorted (· < ·)
        (DepTree.node 2 [DepTree.node 1 [], DepTree.node 3 []]).subtree := by
  have hids : (DepTree.node 2 [DepTree.node 1 [], DepTree.node 3 []]).ids = [2, 1, 3] := by
    simp [DepTree.ids_node]
  have hnd : (DepTree.node 2 [DepTree.node 1 [], DepTree.node 3 []]).ids.Nodup := by
    rw [hids]
    decide
  have hsing : ∀ n : Nat, DepTree.Projective (DepTree.node n []) := by
    intro n
    refine DepTree.Projective.mk _ _ ?_ ?_
    · intro a c b ha hc hab hbc
      simp [DepTree.ids_node] at ha hc ⊢
      omega
    · intro c hc
      cases hc
  have hproj : DepTree.Projective (DepTree.node 2 [DepTree.node 1 [], DepTree.node 3 []]) := by
    refine DepTree.Projective.mk _ _ ?_ ?_
    · intro a c b ha hc hab hbc
      rw [hids] at ha hc ⊢
      simp at ha hc ⊢
      omega
    · intro c hc
      simp only [List.mem_cons, List.mem_singleton, List.not_mem_nil] at hc
      rcases hc with rfl | rfl | h
      · exact hsing 1
      · exact hsing 3
      · cases h
  have hsortc : DepTree.ChildrenSorted (DepTree.node 2 [DepTree.node 1 [], DepTree.node 3 []]) := by
    refine DepTree.ChildrenSorted.mk _ _ ?_ ?_
    · refine List.Pairwise.cons ?_ (List.Pairwise.cons ?_ List.Pairwise.nil)
      · intro b hb
        simp only [List.mem_singleton] at hb
        subst hb
        simp [DepTree.rootId]
      · intro b hb
        cases hb
    · intro c hc
      simp only [List.mem_cons, List.mem_singleton, List.not_mem_nil] at hc
      have hs : ∀ n : Nat, DepTree.ChildrenSorted (DepTree.node n []) := fun n =>
        DepTree.ChildrenSorted.mk _ _ List.Pairwise.nil (fun c hc => by cases hc)
      rcases hc with rfl | rfl | h
      · exact hs 1
      · exact hs 3
      · cases h
  exact ⟨hnd, hproj, hsortc, C3_amended_subtree_sorted _ hnd hproj hsortc⟩

/-! ## C4: the threshold filter of the shared-relation argument merge -/

/-- Stable insertion permutes. -/
theorem insertB_perm {α : Type} (le : α → α → Bool) (x : α) (l : List α) :
    List.Perm (insertB le x l) (x :: l) := by
  induction l with
  | nil => exact List.Perm.refl _
  | cons y ys ih =>
    unfold insertB
    by_cases h : le x y
    · rw [if_pos h]
    · rw [if_neg h]
      exact (ih.cons y).trans (List.Perm.swap x y ys)

/-- The stable sort permutes its input. -/
theorem sortB_perm {α : Type} (le : α → α → Bool) (l : List α) :
    List.Perm (sortB le l) l := by
  induction l with
  | nil => exact List.Perm.refl _
  | cons x xs ih => exact (insertB_perm le x (sortB le xs)).trans (ih.cons x)

/-- The conditional-filter fold only removes elements. -/
theorem foldl_condFilter_subset {α : Type} [BEq α] (cond : α → Bool)
    (others : List α) :
    ∀ (res : List α) (n : α),
      n ∈ others.foldl
        (fun acc m => if cond m then acc.filter (fun x => !(x == m)) else acc) res →
      n ∈ res := by
  induction others with
  | nil => intro res n h; exact h
  | cons m ms ih =>
    intro res n h
    rw [List.foldl_cons] at h
    by_cases hc : cond m
    · rw [if_pos hc] at h
      exact List.mem_of_mem_filter (ih _ n h)
    · rw [if_neg hc] at h
      exact ih _ n h

/-- An element of the scanned list whose test holds is absent from the
conditional-filter fold's result. -/
theorem foldl_condFilter_removes {α : Type} [BEq α] [LawfulBEq α] (cond : α → Bool)
    (others : List α) :
    ∀ (res : List α) (n : α), n ∈ others → cond n = true →
      n ∉ others.foldl
        (fun acc m => if cond m then acc.filter (fun x => !(x == m)) else acc) res := by
  induction others with
  | nil => intro res n h; cases h
  | cons m ms ih =>
    intro res n hmem hcond h
    rw [List.foldl_cons] at h
    rcases List.mem_cons.mp hmem with rfl | hms
    · rw [if_pos hcond] at h
      have hres := foldl_condFilter_subset cond ms _ n h
      rw [List.mem_filter] at hres
      simp at hres
    · by_cases hc : cond m
      · rw [if_pos hc] at h
        exact ih _ n hms hcond h
      · rw [if_neg hc] at h
        exact ih _ n hms hcond h

/-- C4: once `_filter_node_merge_candidates` has picked the representative
(the head of the weight-descending sort of the surviving candidates), every
other node kept in the merged set lies within the cosine-distance threshold
0.3 of it — an all-zero embedding on either side counts as infinitely far,
so such a node is never kept alongside the representative, and if the
representative itself has the all-zero embedding, nothing else survives, so
no merge happens. -/
theorem C4_distance_filter (g : RelGraphState) (cos : List Rat → List Rat → Rat)
    (nodes : List NodeKey) (mainNode : NodeKey)
    (hmain : mergeMainOf g nodes = some mainNode) :
    (∀ n ∈ filterNodeMergeCandidates g cos nodes, n ≠ mainNode →
        distExceedsThreshold (nodesDistance g cos mainNode n) = false) ∧
      ((nodeAttr g mainNode).vector.all (· == 0) = true →
        ∀ n ∈ filterNodeMergeCandidates g cos nodes, n = mainNode) := by
  unfold mergeMainOf at hmain
  by_cases hlen : (discardPass g nodes).length < 2
  · rw [if_pos hlen] at hmain
    cases hmain
  · rw [if_neg hlen] at hmain
    have hmain1 : ∀ n ∈ filterNodeMergeCandidates g cos nodes, n ≠ mainNode →
        distExceedsThreshold (nodesDistance g cos mainNode n) = false := by
      intro n hn hne
      unfold filterNodeMergeCandidates at hn
      rw [if_neg hlen] at hn
      cases hsorted : sortNodesDesc g (discardPass g nodes) with
      | nil =>
        rw [hsorted] at hmain
        cases hmain
      | cons m others =>
        rw [hsorted] at hmain hn
        have hm : m = mainNode := by simpa using hmain
        subst hm
        by_contra hexc
        have hexc' : distExceedsThreshold (nodesDistance g cos m n) = true :=
          Bool.not_eq_false _ ▸ Bool.of_not_eq_false hexc
        have hin : n ∈ discardPass g nodes :=
          foldl_condFilter_subset _ others _ n hn
        have hin2 : n ∈ sortNodesDesc g (discardPass g nodes) := by
          unfold sortNodesDesc
          exact (sortB_perm _ _).mem_iff.mpr hin
        rw [hsorted] at hin2
        rcases List.mem_cons.mp hin2 with rfl | hothers
        · exact hne rfl
        · exact foldl_condFilter_removes _ others _ n hothers hexc' hn
    refine ⟨hmain1, ?_⟩
    intro hzero n hn
    by_contra hne
    have h1 := hmain1 n hn hne
    have hd : nodesDistance g cos mainNode n = none := by
      unfold nodesDistance
      simp only [hzero, Bool.true_or, if_true]
    rw [hd] at h1
    exact absurd h1 (by simp [distExceedsThreshold])

/-- Witness for C4 on a concrete two-candidate graph. -/
theorem C4_distance_filter_witness :
    mergeMainOf gC4w [("p", [0]), ("q", [0])] = some ("p", [0]) ∧
      ((∀ n ∈ filterNodeMergeCandidates gC4w cos0 [("p", [0]), ("q", [0])],
          n ≠ ("p", [0]) →
          distExceedsThreshold (nodesDistance gC4w cos0 ("p", [0]) n) = false) ∧
        ((nodeAttr gC4w ("p", [0])).vector.all (· == 0) = true →
          ∀ n ∈ filterNodeMergeCandidates gC4w cos0 [("p", [0]), ("q", [0])],
            n = ("p", [0]))) :=
  ⟨by decide, C4_distance_filter gC4w cos0 _ _ (by decide)⟩

/-! ## C7: re-running the consolidator -/

/-- C7 (amended): a graph on which the consolidator finds no same-name group
and the scan finds no candidate is a fixed point of `merge_relations`: when
the first run's final iteration performed no same-name merge, the second run
exits on its first iteration and changes nothing.  (In general the second
run is NOT a no-op: the first run's last iteration may perform same-name
merges whose deferred or newly-created groups only a further run would pick
up — see the counterexample.) -/
theorem C7_amended_fixpoint (g : RelGraphState) (cos : List Rat → List Rat → Rat)
    (fuel : Nat) (hsame : findSameNameNodesToMerge g = [])
    (hscan : scanForMerges g cos = none) :
    mergeRelationsF cos fuel g = g := by
  cases fuel with
  | zero => rfl
  | succ n =>
    unfold mergeRelationsF
    rw [hsame]
    simp only [List.foldl_nil]
    rw [hscan]

/-- Witness for the amended C7 on the empty graph. -/
theorem C7_amended_fixpoint_witness :
    findSameNameNodesToMerge ⟨[], []⟩ = [] ∧
      scanForMerges ⟨[], []⟩ cos0 = none ∧
      mergeRelationsF cos0 3 ⟨[], []⟩ = ⟨[], []⟩ :=
  ⟨rfl, rfl, C7_amended_fixpoint ⟨[], []⟩ cos0 3 rfl rfl⟩

/-! ## C2: weight accounting of the merge passes -/

/-- A first lookup is the head of the filtered list. -/
theorem find?_eq_head?_filter {α : Type} (p : α → Bool) (l : List α) :
    l.find? p = (l.filter p).head? := by
  induction l with
  | nil => rfl
  | cons x xs ih =>
    by_cases h : p x
    · rw [List.find?_cons_of_pos _ h, List.filter_cons_of_pos h, List.head?_cons]
    · rw [List.find?_cons_of_neg _ (by simp [h]), List.filter_cons_of_neg (by simp [h])]
      exact ih

/-- An in-place update at one key leaves the entries of every other key
untouched. -/
theorem filter_updFirst_ne {κ α : Type} [BEq κ] [LawfulBEq κ] (f : α → α)
    (k0 k : κ) (hk : k ≠ k0) :
    ∀ l : List (κ × α),
      (updFirst l k0 f).filter (fun p => p.1 == k) = l.filter fun p => p.1 == k := by
  intro l
  induction l with
  | nil => rfl
  | cons p rest ih =>
    unfold updFirst
    by_cases h : p.1 == k0
    · rw [if_pos h]
      have hpk : (p.1 == k) = false := by
        have : p.1 = k0 := by simpa using h
        simp [this]
        exact fun hc => hk hc.symm
      rw [@List.filter_cons_of_neg (κ × α) (fun q => q.1 == k) (p.1, f p.2) rest
          (by simp [hpk]),
        @List.filter_cons_of_neg (κ × α) (fun q => q.1 == k) p rest (by simp [hpk])]
    · rw [if_neg h]
      by_cases hp : (p.1 == k)
      · rw [@List.filter_cons_of_pos (κ × α) (fun q => q.1 == k) p (updFirst rest k0 f) hp,
          @List.filter_cons_of_pos (κ × α) (fun q => q.1 == k) p rest hp, ih]
      · rw [@List.filter_cons_of_neg (κ × α) (fun q => q.1 == k) p (updFirst rest k0 f)
            (by simp [hp]),
          @List.filter_cons_of_neg (κ × α) (fun q => q.1 == k) p rest (by simp [hp]), ih]

/-- The sum of a measure over a list splits along one key's entries. -/
theorem sum_split_by_key {κ α : Type} [BEq κ] (w : α → Nat) (k : κ) :
    ∀ l : List (κ × α),
      ((l.map fun p => w p.2).sum =
        ((l.filter fun p => p.1 == k).map fun p => w p.2).sum +
          ((l.filter fun p => !(p.1 == k)).map fun p => w p.2).sum) := by
  intro l
  induction l with
  | nil => rfl
  | cons p rest ih =>
    by_cases h : p.1 == k
    · rw [@List.filter_cons_of_pos (κ × α) (fun q => q.1 == k) p rest h,
        @List.filter_cons_of_neg (κ × α) (fun q => !(q.1 == k)) p rest (by simp [h])]
      simp only [List.map_cons, List.sum_cons, ih]
      omega
    · rw [@List.filter_cons_of_neg (κ × α) (fun q => q.1 == k) p rest (by simp [h]),
        @List.filter_cons_of_pos (κ × α) (fun q => !(q.1 == k)) p rest (by simp [h])]
      simp only [List.map_cons, List.sum_cons, ih]
      omega

/-- With duplicate-free keys, the entries at one key weigh exactly the
looked-up attribute's weight (or nothing when absent). -/
theorem sum_filter_key_nodup {κ α : Type} [BEq κ] [LawfulBEq κ] [Inhabited α]
    (w : α → Nat) (hw : w (default : α) = 0) (k : κ) :
    ∀ l : List (κ × α), (l.map Prod.fst).Nodup →
      ((l.filter fun p => p.1 == k).map fun p => w p.2).sum =
        w (((l.find? fun p => p.1 == k).map (·.2)).getD default) := by
  intro l
  induction l with
  | nil => intro _; simp [hw]
  | cons p rest ih =>
    intro hnd
    rw [List.map_cons, List.nodup_cons] at hnd
    by_cases h : p.1 == k
    · rw [@List.filter_cons_of_pos (κ × α) (fun q => q.1 == k) p rest h,
        @List.find?_cons_of_pos (κ × α) (fun q => q.1 == k) p rest h]
    
      have hrest : (rest.filter fun q => q.1 == k) = [] := by
        rw [List.filter_eq_nil_iff]
        intro q hq hqk
        have hp1 : p.1 = k := by simpa using h
        have hq1 : q.1 = k := by simpa using hqk
        exact hnd.1 ((hp1.trans hq1.symm) ▸ List.mem_map_of_mem Prod.fst hq)
      simp [hrest]
    · rw [@List.filter_cons_of_neg (κ × α) (fun q => q.1 == k) p rest (by simp [h]),
        @List.find?_cons_of_neg (κ × α) (fun q => q.1 == k) p rest (by simp [h])]
      exact ih hnd.2

/-- An in-place update that adds a fixed amount to the measure of its entry
raises the total by that amount, when the key is present. -/
theorem sum_updFirst_add {κ α : Type} [BEq κ] (f : α → α) (w : α → Nat) (δ : Nat)
    (hf : ∀ a, w (f a) = w a + δ) (k : κ) :
    ∀ l : List (κ × α), (l.any fun p => p.1 == k) = true →
      ((updFirst l k f).map fun p => w p.2).sum = (l.map fun p => w p.2).sum + δ := by
  intro l
  induction l with
  | nil => intro h; simp at h
  | cons p rest ih =>
    intro h
    unfold updFirst
    by_cases hp : p.1 == k
    · rw [if_pos hp]
      simp only [List.map_cons, List.sum_cons, hf]
      omega
    · rw [if_neg hp]
      rw [List.any_cons] at h
      have h' : (rest.any fun p => p.1 == k) = true := by
        rcases Bool.or_eq_true_iff.mp h with h1 | h1
        · exact absurd h1 hp
        · exact h1
      simp only [List.map_cons, List.sum_cons, ih h']
      omega

/-- `_add_node` always increases the total node weight by exactly the weight
it is given, on both the create and the update path. -/
theorem totalNodeWeight_addNode (g : RelGraphState) (lem : String)
    (d lb : List String) (wt : Nat) (v : List Rat) (f : List Nat) :
    totalNodeWeight (addNode g lem d lb wt v f).1 = totalNodeWeight g + wt := by
  unfold addNode totalNodeWeight
  by_cases h : hasNode g (mkNodeKey lem f)
  · rw [if_pos h]
    exact sum_updFirst_add _ NodeAttrs.weight wt (fun a => rfl) _ g.nodes h
  · rw [if_neg h]
    simp

/-- `_add_node` leaves the entries of every key other than the computed one
untouched. -/
theorem filter_addNode_ne (g : RelGraphState) (lem : String) (d lb : List String)
    (wt : Nat) (v : List Rat) (f : List Nat) (k : NodeKey)
    (hk : k ≠ mkNodeKey lem f) :
    (addNode g lem d lb wt v f).1.nodes.filter (fun p => p.1 == k) =
      g.nodes.filter fun p => p.1 == k := by
  unfold addNode
  by_cases h : hasNode g (mkNodeKey lem f)
  · rw [if_pos h]
    exact filter_updFirst_ne _ _ _ hk g.nodes
  · rw [if_neg h]
    rw [List.filter_append]
    have : ([((mkNodeKey lem f), (⟨lem, lb, d, wt, v, f⟩ : NodeAttrs))].filter
        fun p => p.1 == k) = [] := by
      simp
      exact fun hc => hk hc.symm
    rw [this, List.append_nil]

/-- Filtering by a finer test first does not change a filter. -/
theorem filter_filter_sub {α : Type} (p q : α → Bool)
    (hpq : ∀ x, q x = true → p x = true) :
    ∀ l : List α, (l.filter p).filter q = l.filter q := by
  intro l
  induction l with
  | nil => rfl
  | cons x xs ih =>
    by_cases hq : q x
    · have hp := hpq x hq
      rw [List.filter_cons_of_pos hp, List.filter_cons_of_pos hq,
        List.filter_cons_of_pos hq, ih]
    · by_cases hp : p x
      · rw [List.filter_cons_of_pos hp, List.filter_cons_of_neg (by simp [hq]),
          List.filter_cons_of_neg (by simp [hq]), ih]
      · rw [List.filter_cons_of_neg (by simp [hp]),
          List.filter_cons_of_neg (by simp [hq]), ih]

/-- `nodeAttr` of an unrelated key is unchanged by `_add_node`. -/
theorem nodeAttr_addNode_ne (g : RelGraphState) (lem : String) (d lb : List String)
    (wt : Nat) (v : List Rat) (f : List Nat) (k : NodeKey)
    (hk : k ≠ mkNodeKey lem f) :
    nodeAttr (addNode g lem d lb wt v f).1 k = nodeAttr g k := by
  unfold nodeAttr
  rw [find?_eq_head?_filter, find?_eq_head?_filter, filter_addNode_ne g lem d lb wt v f k hk]

/-- The updated first entry of a key. -/
theorem find?_updFirst_self {κ α : Type} [BEq κ] [LawfulBEq κ] (f : α → α) (k : κ) :
    ∀ l : List (κ × α),
      (updFirst l k f).find? (fun p => p.1 == k) =
        (l.find? fun p => p.1 == k).map fun p => (p.1, f p.2) := by
  intro l
  induction l with
  | nil => rfl
  | cons p rest ih =>
    unfold updFirst
    by_cases hp : p.1 == k
    · rw [if_pos hp,
        @List.find?_cons_of_pos (κ × α) (fun q => q.1 == k) (p.1, f p.2) rest hp,
        @List.find?_cons_of_pos (κ × α) (fun q => q.1 == k) p rest hp]
      rfl
    · rw [if_neg hp,
        @List.find?_cons_of_neg (κ × α) (fun q => q.1 == k) p (updFirst rest k f)
          (by simp [hp]),
        @List.find?_cons_of_neg (κ × α) (fun q => q.1 == k) p rest (by simp [hp])]
      exact ih

/-- `_add_node` never changes the `lemmas` attribute a key already reports
(for the computed key itself this needs the inserted lemmas to be the ones
reported, which holds at every use below). -/
theorem lemmas_addNode (g : RelGraphState) (lem : String) (d lb : List String)
    (wt : Nat) (v : List Rat) (f : List Nat) (k : NodeKey)
    (hk : (nodeAttr g k).lemmas = lem ∨ k ≠ mkNodeKey lem f) :
    (nodeAttr (addNode g lem d lb wt v f).1 k).lemmas = (nodeAttr g k).lemmas := by
  rcases hk with hk | hk
  · by_cases hke : k = mkNodeKey lem f
    · unfold addNode
      rw [← hke]
      by_cases h : hasNode g k
      · rw [if_pos h]
        unfold nodeAttr
        rw [find?_updFirst_self]
        cases hfind : g.nodes.find? fun p => p.1 == k with
        | none => rfl
        | some p => rfl
      · rw [if_neg h]
        have hfind : (g.nodes.find? fun p => p.1 == k) = none := by
          rw [List.find?_eq_none]
          intro p hp hpk
          exact h (by unfold hasNode; exact List.any_eq_true.mpr ⟨p, hp, hpk⟩)
        unfold nodeAttr at hk ⊢
        rw [hfind] at hk
        simp only [Option.map_none', Option.getD_none] at hk
        rw [List.find?_append, hfind]
        simp only [Option.none_or]
        rw [@List.find?_cons_of_pos (NodeKey × NodeAttrs) (fun p => p.1 == k)
          (k, ⟨lem, lb, d, wt, v, f⟩) [] (by simp)]
        simpa using hk.symm
    · rw [nodeAttr_addNode_ne g lem d lb wt v f k hke]
  · rw [nodeAttr_addNode_ne g lem d lb wt v f k hk]

/-- The donor fold of `_merge_nodes`: every donor's weight (read live, but
stable because the computed key hits no donor) is added to the total, and
every key other than the computed one keeps its entries. -/
theorem mergeNodesPhase2 (mainNode : NodeKey) (feat : List Nat) :
    ∀ (others : List NodeKey) (g : RelGraphState),
      (∀ k ∈ others, k ≠ mkNodeKey (nodeAttr g mainNode).lemmas feat) →
      (totalNodeWeight (others.foldl (donorFoldStep mainNode feat) g) =
        totalNodeWeight g + (others.map fun k => (nodeAttr g k).weight).sum) ∧
      (∀ k : NodeKey, k ≠ mkNodeKey (nodeAttr g mainNode).lemmas feat →
        (others.foldl (donorFoldStep mainNode feat) g).nodes.filter
            (fun p => p.1 == k) =
          g.nodes.filter fun p => p.1 == k) := by
  intro others
  induction others with
  | nil => exact fun g _ => ⟨by simp, fun k _ => rfl⟩
  | cons k0 ks ih =>
    intro g hK
    have hK0 : k0 ≠ mkNodeKey (nodeAttr g mainNode).lemmas feat :=
      hK k0 (List.mem_cons_self _ _)
    set g1 := donorFoldStep mainNode feat g k0 with hg1
    have hg1' : g1 = (addNode g (nodeAttr g mainNode).lemmas
        (nodeAttr g k0).description (nodeAttr g k0).label (nodeAttr g k0).weight
        (nodeAttr g k0).vector feat).1 := rfl
    have hlem : (nodeAttr g1 mainNode).lemmas = (nodeAttr g mainNode).lemmas := by
      rw [hg1']
      exact lemmas_addNode g _ _ _ _ _ _ mainNode (Or.inl rfl)
    have hK' : ∀ k ∈ ks, k ≠ mkNodeKey (nodeAttr g1 mainNode).lemmas feat := by
      intro k hk
      rw [hlem]
      exact hK k (List.mem_cons_of_mem _ hk)
    have hattr : ∀ k ∈ ks, nodeAttr g1 k = nodeAttr g k := by
      intro k hk
      rw [hg1']
      exact nodeAttr_addNode_ne g _ _ _ _ _ _ k (hK k (List.mem_cons_of_mem _ hk))
    obtain ⟨ihTot, ihFil⟩ := ih g1 hK'
    constructor
    · rw [List.foldl_cons, ← hg1, ihTot, hg1', totalNodeWeight_addNode]
      have : (ks.map fun k => (nodeAttr g1 k).weight) =
          ks.map fun k => (nodeAttr g k).weight :=
        List.map_congr_left fun k hk => by rw [hattr k hk]
      rw [← hg1', this]
      simp only [List.map_cons, List.sum_cons]
      omega
    · intro k hkK
      rw [List.foldl_cons, ← hg1, ihFil k (by rw [hlem]; exact hkK), hg1',
        filter_addNode_ne g _ _ _ _ _ _ k hkK]

/-- `_add_edge` does not touch the node store. -/
theorem nodes_addEdge (g : RelGraphState) (s t : NodeKey)
    (lb lm dp d : List String) (w : Nat) (f : List Nat) :
    (addEdge g s t lb lm dp d w f).nodes = g.nodes := by
  unfold addEdge
  by_cases h : hasEdgeK g s t (mkEdgeKey lb lm dp)
  · rw [if_pos h]
  · rw [if_neg h]

/-- The edge re-pointing fold of `_merge_nodes` does not touch the node
store. -/
theorem nodes_mergeNodesPhase3 (mainNode : NodeKey) (feat : List Nat) :
    ∀ (donorOut : List (EdgeTriple × EdgeAttrs)) (g : RelGraphState),
      (donorOut.foldl (repointStep mainNode feat) g).nodes = g.nodes := by
  intro donorOut
  induction donorOut with
  | nil => intro g; rfl
  | cons p ps ih =>
    intro g
    rw [List.foldl_cons, ih]
    exact nodes_addEdge _ _ _ _ _ _ _ _ _

/-- Removing a node splits the total node weight into the rest plus the
removed entries. -/
theorem totalNodeWeight_removeNode (g : RelGraphState) (k : NodeKey) :
    totalNodeWeight g = totalNodeWeight (removeNode g k) +
      ((g.nodes.filter fun p => p.1 == k).map fun p => p.2.weight).sum := by
  unfold totalNodeWeight removeNode
  dsimp only
  have := sum_split_by_key (fun a : NodeAttrs => a.weight) k g.nodes
  omega

/-- Removing one node leaves the entries of every other key untouched. -/
theorem filter_removeNode_ne (g : RelGraphState) (k0 k : NodeKey) (h : k ≠ k0) :
    (removeNode g k0).nodes.filter (fun p => p.1 == k) =
      g.nodes.filter fun p => p.1 == k := by
  unfold removeNode
  refine filter_filter_sub _ _ ?_ g.nodes
  intro p hp
  have : p.1 = k := by simpa using hp
  simp [this]
  exact fun hc => h (hc ▸ rfl)

/-- The donor removal fold of `_merge_nodes`: the total drops by exactly the
donors' entry weights. -/
theorem mergeNodesPhase4 :
    ∀ (others : List NodeKey) (g2 : RelGraphState), others.Nodup →
      totalNodeWeight g2 = totalNodeWeight (others.foldl removeNode g2) +
        (others.map fun k =>
          ((g2.nodes.filter fun p => p.1 == k).map fun p => p.2.weight).sum).sum := by
  intro others
  induction others with
  | nil => intro g2 _; simp
  | cons k0 ks ih =>
    intro g2 hnd
    rw [List.nodup_cons] at hnd
    have h1 := totalNodeWeight_removeNode g2 k0
    have h2 := ih (removeNode g2 k0) hnd.2
    have h3 : (ks.map fun k =>
        (((removeNode g2 k0).nodes.filter fun p => p.1 == k).map
          fun p => p.2.weight).sum) =
        ks.map fun k =>
          ((g2.nodes.filter fun p => p.1 == k).map fun p => p.2.weight).sum :=
      List.map_congr_left fun k hk => by
        rw [filter_removeNode_ne g2 k0 k (fun hc => hnd.1 (hc ▸ hk))]
    rw [h3] at h2
    simp only [List.foldl_cons, List.map_cons, List.sum_cons]
    omega

/-- `_merge_nodes` preserves the total node weight provided the computed
survivor key is not a donor's key. -/
theorem mergeNodes_weight_preserved (g : RelGraphState) (ks : List NodeKey)
    (hgnd : (g.nodes.map Prod.fst).Nodup) (hknd : ks.Nodup)
    (hKd : mergedNodeKeyOf g ks ∉ (sortNodesDesc g ks).tail) :
    totalNodeWeight (mergeNodes g ks) = totalNodeWeight g := by
  unfold mergeNodes
  cases hs : sortNodesDesc g ks with
  | nil => rfl
  | cons mainNode others =>
    dsimp only
    have hKval : mergedNodeKeyOf g ks =
        mkNodeKey (nodeAttr g mainNode).lemmas
          (others.foldl (fun acc k => natSetUnion acc (nodeAttr g k).featType)
            (nodeAttr g mainNode).featType) := by
      unfold mergedNodeKeyOf mergedFeatOf
      rw [hs]
    rw [hs, List.tail_cons] at hKd
    have hOthersK : ∀ k ∈ others,
        k ≠ mkNodeKey (nodeAttr g mainNode).lemmas
          (others.foldl (fun acc k => natSetUnion acc (nodeAttr g k).featType)
            (nodeAttr g mainNode).featType) := by
      intro k hk heq
      exact hKd (by rw [hKval, ← heq]; exact hk)
    have hOthersNd : others.Nodup := by
      have : (sortNodesDesc g ks).Nodup :=
        ((sortB_perm _ ks).nodup_iff).mpr hknd
      rw [hs, List.nodup_cons] at this
      exact this.2
    obtain ⟨hTot, hFil⟩ := mergeNodesPhase2 mainNode
      (others.foldl (fun acc k => natSetUnion acc (nodeAttr g k).featType)
        (nodeAttr g mainNode).featType) others g hOthersK
    set feat := others.foldl (fun acc k => natSetUnion acc (nodeAttr g k).featType)
      (nodeAttr g mainNode).featType with hfeat
    set g1 := others.foldl (donorFoldStep mainNode feat) g with hg1
    set donorOut := g1.edges.filter (fun p => others.contains p.1.1) with hdOut
    set g2 := donorOut.foldl (repointStep mainNode feat) g1 with hg2
    have hNodes2 : g2.nodes = g1.nodes := nodes_mergeNodesPhase3 mainNode feat donorOut g1
    have hTot2 : totalNodeWeight g2 = totalNodeWeight g1 := by
      unfold totalNodeWeight
      rw [hNodes2]
    have h4 := mergeNodesPhase4 others g2 hOthersNd
    have hS : (others.map fun k =>
        ((g2.nodes.filter fun p => p.1 == k).map fun p => p.2.weight).sum) =
        others.map fun k => (nodeAttr g k).weight := by
      refine List.map_congr_left fun k hk => ?_
      rw [hNodes2, hFil k (hOthersK k hk)]
      exact sum_filter_key_nodup NodeAttrs.weight rfl k g.nodes hgnd
    rw [hS] at h4
    omega

/-- `_add_edge` always raises the total edge weight by exactly the weight it
is given, on both the create and the update path. -/
theorem totalEdgeWeight_addEdge (g : RelGraphState) (s t : NodeKey)
    (lb lm dp d : List String) (w : Nat) (f : List Nat) :
    totalEdgeWeight (addEdge g s t lb lm dp d w f) = totalEdgeWeight g + w := by
  unfold addEdge totalEdgeWeight
  by_cases h : hasEdgeK g s t (mkEdgeKey lb lm dp)
  · rw [if_pos h]
    exact sum_updFirst_add _ EdgeAttrs.weight w (fun a => rfl) _ g.edges h
  · rw [if_neg h]
    simp

/-- `_add_edge` leaves the entries of every edge position other than the
computed one untouched. -/
theorem filter_addEdge_ne (g : RelGraphState) (s t : NodeKey)
    (lb lm dp d : List String) (w : Nat) (f : List Nat) (e : EdgeTriple)
    (he : e ≠ (s, t, mkEdgeKey lb lm dp)) :
    (addEdge g s t lb lm dp d w f).edges.filter (fun p => p.1 == e) =
      g.edges.filter fun p => p.1 == e := by
  unfold addEdge
  by_cases h : hasEdgeK g s t (mkEdgeKey lb lm dp)
  · rw [if_pos h]
    exact filter_updFirst_ne _ _ _ he g.edges
  · rw [if_neg h]
    rw [List.filter_append]
    have : ([(((s, t, mkEdgeKey lb lm dp) : EdgeTriple),
        (⟨lb, lm, dp, d, w, f⟩ : EdgeAttrs))].filter fun p => p.1 == e) = [] := by
      simp
      exact fun hc => he hc.symm
    rw [this, List.append_nil]

/-- Removing an edge splits the total edge weight into the rest plus the
removed entries. -/
theorem totalEdgeWeight_removeEdge (g : RelGraphState) (e : EdgeTriple) :
    totalEdgeWeight g = totalEdgeWeight (removeEdge g e) +
      ((g.edges.filter fun p => p.1 == e).map fun p => p.2.weight).sum := by
  unfold totalEdgeWeight removeEdge
  dsimp only
  have := sum_split_by_key (fun a : EdgeAttrs => a.weight) e g.edges
  omega

/-- Removing one edge leaves the entries of every other edge position
untouched. -/
theorem filter_removeEdge_ne (g : RelGraphState) (e0 e : EdgeTriple)
    (h : e ≠ e0) :
    (removeEdge g e0).edges.filter (fun p => p.1 == e) =
      g.edges.filter fun p => p.1 == e := by
  unfold removeEdge
  refine filter_filter_sub _ _ ?_ g.edges
  intro p hp
  have : p.1 = e := by simpa using hp
  simp [this]
  exact fun hc => h (hc ▸ rfl)

/-- An in-place update never changes the key sequence. -/
theorem map_fst_updFirst {κ α : Type} [BEq κ] (f : α → α) (k : κ) :
    ∀ l : List (κ × α), (updFirst l k f).map Prod.fst = l.map Prod.fst := by
  intro l
  induction l with
  | nil => rfl
  | cons p rest ih =>
    unfold updFirst
    by_cases hp : p.1 == k
    · rw [if_pos hp]
      rfl
    · rw [if_neg hp]
      simp only [List.map_cons, ih]

/-- `_add_edge` keeps the edge positions duplicate-free. -/
theorem edgesKeysNodup_addEdge (g : RelGraphState) (s t : NodeKey)
    (lb lm dp d : List String) (w : Nat) (f : List Nat)
    (hgnd : (g.edges.map Prod.fst).Nodup) :
    ((addEdge g s t lb lm dp d w f).edges.map Prod.fst).Nodup := by
  unfold addEdge
  by_cases h : hasEdgeK g s t (mkEdgeKey lb lm dp)
  · rw [if_pos h]
    dsimp only
    rw [map_fst_updFirst]
    exact hgnd
  · rw [if_neg h]
    dsimp only
    rw [List.map_append]
    rw [List.nodup_append]
    refine ⟨hgnd, List.nodup_singleton _, ?_⟩
    intro x hx hx1
    simp only [List.map_cons, List.map_nil, List.mem_singleton] at hx1
    subst hx1
    rcases List.mem_map.mp hx with ⟨p, hp, hpe⟩
    refine h ?_
    unfold hasEdgeK
    exact List.any_eq_true.mpr ⟨p, hp, by simp [hpe]⟩

/-- `remove_edge` keeps the edge positions duplicate-free. -/
theorem edgesKeysNodup_removeEdge (g : RelGraphState) (e : EdgeTriple)
    (hgnd : (g.edges.map Prod.fst).Nodup) :
    ((removeEdge g e).edges.map Prod.fst).Nodup := by
  unfold removeEdge
  exact ((List.filter_sublist g.edges).map Prod.fst).nodup hgnd

/-- Accounting of the `_merge_edges` rewrite loop: every iteration adds the
full summed weight under the shared new key and removes the original edge's
entries, so the total grows by one summed weight per merged edge while the
original entries are all paid back. -/
theorem mergeEdgesFold (L Lm Dp : List String) (W : Nat) :
    ∀ (es : List EdgeTriple) (g : RelGraphState),
      es.Nodup →
      (∀ e ∈ es, e.2.2 ≠ mkEdgeKey L Lm Dp) →
      (g.edges.map Prod.fst).Nodup →
      totalEdgeWeight (es.foldl (mergeEdgeStep L Lm Dp W) g) +
          (es.map fun e =>
            ((g.edges.filter fun p => p.1 == e).map fun p => p.2.weight).sum).sum =
        totalEdgeWeight g + es.length * W := by
  intro es
  induction es with
  | nil => intro g _ _ _; simp
  | cons e0 rest ih =>
    intro g hnd hK hgnd
    rw [List.nodup_cons] at hnd
    have hK0 : e0.2.2 ≠ mkEdgeKey L Lm Dp := hK e0 (List.mem_cons_self _ _)
    have hne0 : e0 ≠ (e0.1, e0.2.1, mkEdgeKey L Lm Dp) := by
      intro hc
      exact hK0 (by
        have := congrArg (fun x : EdgeTriple => x.2.2) hc
        simpa using this)
    set gA := addEdge g e0.1 e0.2.1 L Lm Dp (edgeAttr g e0).description W
      (edgeAttr g e0).featType with hgA
    have hstep : mergeEdgeStep L Lm Dp W g e0 = removeEdge gA e0 := rfl
    have ha : totalEdgeWeight gA = totalEdgeWeight g + W :=
      totalEdgeWeight_addEdge g _ _ _ _ _ _ _ _
    have hsplit := totalEdgeWeight_removeEdge gA e0
    have hfa : gA.edges.filter (fun p => p.1 == e0) =
        g.edges.filter fun p => p.1 == e0 :=
      filter_addEdge_ne g _ _ _ _ _ _ _ _ e0 hne0
    have hgAnd : (gA.edges.map Prod.fst).Nodup :=
      edgesKeysNodup_addEdge g _ _ _ _ _ _ _ _ hgnd
    have hg'nd : ((removeEdge gA e0).edges.map Prod.fst).Nodup :=
      edgesKeysNodup_removeEdge gA e0 hgAnd
    have hrestK : ∀ e ∈ rest, e.2.2 ≠ mkEdgeKey L Lm Dp :=
      fun e he => hK e (List.mem_cons_of_mem _ he)
    have hfil : ∀ e ∈ rest,
        (removeEdge gA e0).edges.filter (fun p => p.1 == e) =
          g.edges.filter fun p => p.1 == e := by
      intro e he
      have hne : e ≠ (e0.1, e0.2.1, mkEdgeKey L Lm Dp) := by
        intro hc
        exact hrestK e he (by
          have := congrArg (fun x : EdgeTriple => x.2.2) hc
          simpa using this)
      rw [filter_removeEdge_ne gA e0 e (fun hc => hnd.1 (hc ▸ he)),
        filter_addEdge_ne g _ _ _ _ _ _ _ _ e hne]
    have hih := ih (removeEdge gA e0) hnd.2 hrestK hg'nd
    have hSum : (rest.map fun e =>
        (((removeEdge gA e0).edges.filter fun p => p.1 == e).map
          fun p => p.2.weight).sum) =
        rest.map fun e =>
          ((g.edges.filter fun p => p.1 == e).map fun p => p.2.weight).sum :=
      List.map_congr_left fun e he => by rw [hfil e he]
    rw [hSum] at hih
    rw [List.foldl_cons, hstep]
    rw [hfa] at hsplit
    simp only [List.map_cons, List.sum_cons, List.length_cons, Nat.succ_mul]
    generalize rest.length * W = m at hih ⊢
    omega

/-- `_merge_edges` raises the total edge weight by one extra copy of the
summed weight per merged edge beyond the first, provided no merged edge
already sits at the shared new key. -/
theorem mergeEdges_weight_formula (g : RelGraphState) (es : List EdgeTriple)
    (hgnd : (g.edges.map Prod.fst).Nodup) (hnd : es.Nodup)
    (hK : ∀ e ∈ es, e.2.2 ≠ mergedEdgeKeyOf g es) :
    totalEdgeWeight (mergeEdges g es) =
      totalEdgeWeight g + (es.length - 1) * mergedWeightOf g es := by
  have hfold := mergeEdgesFold
    (es.foldl (fun acc e => strSetUnion acc (edgeAttr g e).label) [])
    (es.foldl (fun acc e => strSetUnion acc (edgeAttr g e).lemmas) [])
    (es.foldl (fun acc e => strSetUnion acc (edgeAttr g e).deprel) [])
    ((es.map fun e => (edgeAttr g e).weight).sum) es g hnd
    (fun e he => hK e he) hgnd
  have hmE : mergeEdges g es =
      es.foldl (mergeEdgeStep
        (es.foldl (fun acc e => strSetUnion acc (edgeAttr g e).label) [])
        (es.foldl (fun acc e => strSetUnion acc (edgeAttr g e).lemmas) [])
        (es.foldl (fun acc e => strSetUnion acc (edgeAttr g e).deprel) [])
        ((es.map fun e => (edgeAttr g e).weight).sum)) g := rfl
  have hS : (es.map fun e =>
      ((g.edges.filter fun p => p.1 == e).map fun p => p.2.weight).sum) =
      es.map fun e => (edgeAttr g e).weight :=
    List.map_congr_left fun e _ =>
      sum_filter_key_nodup EdgeAttrs.weight rfl e g.edges hgnd
  rw [hS] at hfold
  rw [hmE]
  have hWm : mergedWeightOf g es = (es.map fun e => (edgeAttr g e).weight).sum := rfl
  rw [hWm]
  cases es with
  | nil => simp
  | cons e0 rest =>
    simp only [List.length_cons, Nat.add_sub_cancel, Nat.succ_mul] at hfold ⊢
    generalize (rest.length *
      ((e0 :: rest).map fun e => (edgeAttr g e).weight).sum) = m at hfold ⊢
    omega

/-- C2 (amended): a `_merge_nodes` pass preserves the total node weight
provided the computed survivor key does not coincide with a donor's key
(otherwise the donor entry created under it is deleted by the removal fold);
a `_merge_edges` pass does NOT preserve the total edge weight: because every
rewritten edge receives the full summed weight, the total grows by one extra
copy of the summed weight per merged edge beyond the first (it is preserved
only for single-edge merges). -/
theorem C2_amended_weight (g1 g2 : RelGraphState) (ks : List NodeKey)
    (es : List EdgeTriple)
    (h1 : (g1.nodes.map Prod.fst).Nodup) (h2 : ks.Nodup)
    (h3 : mergedNodeKeyOf g1 ks ∉ (sortNodesDesc g1 ks).tail)
    (h4 : (g2.edges.map Prod.fst).Nodup) (h5 : es.Nodup)
    (h6 : ∀ e ∈ es, e.2.2 ≠ mergedEdgeKeyOf g2 es) :
    totalNodeWeight (mergeNodes g1 ks) = totalNodeWeight g1 ∧
    totalEdgeWeight (mergeEdges g2 es) =
      totalEdgeWeight g2 + (es.length - 1) * mergedWeightOf g2 es :=
  ⟨mergeNodes_weight_preserved g1 ks h1 h2 h3,
    mergeEdges_weight_formula g2 es h4 h5 h6⟩

/-- The amended C2 at concrete inputs: the node-merge on `gC8ce` keeps the
node total, and the edge-merge on `gC2ce` turns totals 2+3 into 5+5. -/
theorem C2_amended_weight_witness :
    totalNodeWeight (mergeNodes gC8ce [("xa", [1]), ("xb", [2])]) =
        totalNodeWeight gC8ce ∧
    totalEdgeWeight (mergeEdges gC2ce esC2) =
      totalEdgeWeight gC2ce + (esC2.length - 1) * mergedWeightOf gC2ce esC2 :=
  C2_amended_weight gC8ce gC2ce [("xa", [1]), ("xb", [2])] esC2
    (by decide) (by decide) (by decide) (by decide) (by decide) (by decide)

/-! ## C8: cardinality accounting of the merge and inheritance passes -/

/-- An in-place update never changes the entry count. -/
theorem length_updFirst {κ α : Type} [BEq κ] (f : α → α) (k : κ)
    (l : List (κ × α)) : (updFirst l k f).length = l.length := by
  have h := congrArg List.length (map_fst_updFirst f k l)
  simpa using h

/-- The key sequence `_add_node` leaves behind: unchanged on update, the
computed key appended on create. -/
theorem map_fst_addNode (g : RelGraphState) (lem : String) (d lb : List String)
    (wt : Nat) (v : List Rat) (f : List Nat) :
    (addNode g lem d lb wt v f).1.nodes.map Prod.fst =
      if hasNode g (mkNodeKey lem f) then g.nodes.map Prod.fst
      else g.nodes.map Prod.fst ++ [mkNodeKey lem f] := by
  unfold addNode
  by_cases h : hasNode g (mkNodeKey lem f)
  · simp only [if_pos h]
    exact map_fst_updFirst _ _ _
  · simp only [if_neg h]
    simp

/-- Any-over-entries at a key is any-over-keys. -/
theorem any_key_eq_map {κ α : Type} [BEq κ] (k : κ) :
    ∀ l : List (κ × α),
      (l.any fun p => p.1 == k) = ((l.map Prod.fst).any fun x => x == k) := by
  intro l
  induction l with
  | nil => rfl
  | cons p rest ih => simp only [List.any_cons, List.map_cons, ih]

/-- The count of entries at a key only depends on the key sequence. -/
theorem filterKeyLen_map_fst {κ α : Type} [BEq κ] (k : κ) :
    ∀ l : List (κ × α),
      (l.filter fun p => p.1 == k).length =
        ((l.map Prod.fst).filter fun x => x == k).length := by
  intro l
  induction l with
  | nil => rfl
  | cons p rest ih =>
    by_cases h : p.1 == k
    · rw [@List.filter_cons_of_pos (κ × α) (fun q => q.1 == k) p rest h,
        List.map_cons,
        @List.filter_cons_of_pos κ (fun x => x == k) p.1 (rest.map Prod.fst) h]
      simp only [List.length_cons, ih]
    · rw [@List.filter_cons_of_neg (κ × α) (fun q => q.1 == k) p rest (by simp [h]),
        List.map_cons,
        @List.filter_cons_of_neg κ (fun x => x == k) p.1 (rest.map Prod.fst)
          (by simp [h]), ih]

/-- After `_add_node` the computed key is present. -/
theorem hasNode_addNode_self (g : RelGraphState) (lem : String)
    (d lb : List String) (wt : Nat) (v : List Rat) (f : List Nat) :
    hasNode (addNode g lem d lb wt v f).1 (mkNodeKey lem f) = true := by
  unfold hasNode
  rw [any_key_eq_map, map_fst_addNode]
  by_cases h : hasNode g (mkNodeKey lem f)
  · rw [if_pos h]
    rw [← any_key_eq_map]
    exact h
  · rw [if_neg h]
    simp

/-- `_add_node` grows the node count by one on create, none on update. -/
theorem length_addNode (g : RelGraphState) (lem : String) (d lb : List String)
    (wt : Nat) (v : List Rat) (f : List Nat) :
    (addNode g lem d lb wt v f).1.nodes.length =
      if hasNode g (mkNodeKey lem f) then g.nodes.length
      else g.nodes.length + 1 := by
  unfold addNode
  by_cases h : hasNode g (mkNodeKey lem f)
  · simp only [if_pos h]
    exact length_updFirst _ _ _
  · simp only [if_neg h]
    simp

/-- `_add_node` never loses entries at any key. -/
theorem filterKeyLen_addNode_mono (g : RelGraphState) (lem : String)
    (d lb : List String) (wt : Nat) (v : List Rat) (f : List Nat) (k : NodeKey) :
    (g.nodes.filter fun p => p.1 == k).length ≤
      ((addNode g lem d lb wt v f).1.nodes.filter fun p => p.1 == k).length := by
  rw [filterKeyLen_map_fst, filterKeyLen_map_fst, map_fst_addNode]
  by_cases h : hasNode g (mkNodeKey lem f)
  · rw [if_pos h]
  · rw [if_neg h, List.filter_append, List.length_append]
    exact Nat.le_add_right _ _

/-- A present key has a positive entry count. -/
theorem any_key_pos_filter {κ α : Type} [BEq κ] (k : κ) (l : List (κ × α))
    (h : (l.any fun p => p.1 == k) = true) :
    0 < (l.filter fun p => p.1 == k).length := by
  obtain ⟨p, hp, hpk⟩ := List.any_eq_true.mp h
  exact List.length_pos.mpr fun hnil => by
    have : p ∈ l.filter fun q => q.1 == k := List.mem_filter.mpr ⟨hp, hpk⟩
    rw [hnil] at this
    cases this

/-- The entry count splits along one key. -/
theorem length_filter_key_split {κ α : Type} [BEq κ] (k : κ) :
    ∀ l : List (κ × α),
      l.length = (l.filter fun p => p.1 == k).length +
        (l.filter fun p => !(p.1 == k)).length := by
  intro l
  induction l with
  | nil => rfl
  | cons p rest ih =>
    by_cases h : p.1 == k
    · rw [@List.filter_cons_of_pos (κ × α) (fun q => q.1 == k) p rest h,
        @List.filter_cons_of_neg (κ × α) (fun q => !(q.1 == k)) p rest (by simp [h])]
      simp only [List.length_cons, ih]
      omega
    · rw [@List.filter_cons_of_neg (κ × α) (fun q => q.1 == k) p rest (by simp [h]),
        @List.filter_cons_of_pos (κ × α) (fun q => !(q.1 == k)) p rest (by simp [h])]
      simp only [List.length_cons, ih]
      omega

/-- The donor fold of `_merge_nodes` adds at most one node (all its
`_add_node` calls target one constant key), and exactly none once that key
is present. -/
theorem mergeNodesPhase2Count (mainNode : NodeKey) (feat : List Nat) :
    ∀ (others : List NodeKey) (g : RelGraphState),
      ((others.foldl (donorFoldStep mainNode feat) g).nodes.length ≤
        g.nodes.length + 1) ∧
      (hasNode g (mkNodeKey (nodeAttr g mainNode).lemmas feat) = true →
        (others.foldl (donorFoldStep mainNode feat) g).nodes.length =
          g.nodes.length) := by
  intro others
  induction others with
  | nil => exact fun g => ⟨Nat.le_succ _, fun _ => rfl⟩
  | cons k0 ks ih =>
    intro g
    set g1 := donorFoldStep mainNode feat g k0 with hg1
    have hg1' : g1 = (addNode g (nodeAttr g mainNode).lemmas
        (nodeAttr g k0).description (nodeAttr g k0).label (nodeAttr g k0).weight
        (nodeAttr g k0).vector feat).1 := rfl
    have hlem : (nodeAttr g1 mainNode).lemmas = (nodeAttr g mainNode).lemmas := by
      rw [hg1']
      exact lemmas_addNode g _ _ _ _ _ _ mainNode (Or.inl rfl)
    have hK1 : hasNode g1 (mkNodeKey (nodeAttr g1 mainNode).lemmas feat) = true := by
      rw [hlem, hg1']
      exact hasNode_addNode_self g _ _ _ _ _ _
    have hlen1 : g1.nodes.length =
        if hasNode g (mkNodeKey (nodeAttr g mainNode).lemmas feat) then
          g.nodes.length
        else g.nodes.length + 1 := by
      rw [hg1']
      exact length_addNode g _ _ _ _ _ _
    obtain ⟨_, ihB⟩ := ih g1
    have heq := ihB hK1
    have hfold : ((k0 :: ks).foldl (donorFoldStep mainNode feat) g) =
        ks.foldl (donorFoldStep mainNode feat) g1 := by
      rw [List.foldl_cons, ← hg1]
    constructor
    · rw [hfold, heq, hlen1]
      split
      · exact Nat.le_succ _
      · exact le_refl _
    · intro hg
      rw [hfold, heq, hlen1, if_pos hg]

/-- The donor removal fold: the node count drops by exactly the donors'
entry counts. -/
theorem mergeNodesPhase4Count :
    ∀ (others : List NodeKey) (g2 : RelGraphState), others.Nodup →
      g2.nodes.length = (others.foldl removeNode g2).nodes.length +
        (others.map fun k =>
          (g2.nodes.filter fun p => p.1 == k).length).sum := by
  intro others
  induction others with
  | nil => intro g2 _; simp
  | cons k0 ks ih =>
    intro g2 hnd
    rw [List.nodup_cons] at hnd
    have h1 : g2.nodes.length = (removeNode g2 k0).nodes.length +
        (g2.nodes.filter fun p => p.1 == k0).length := by
      unfold removeNode
      dsimp only
      have hs := length_filter_key_split k0 g2.nodes
      omega
    have h2 := ih (removeNode g2 k0) hnd.2
    have h3 : (ks.map fun k =>
        ((removeNode g2 k0).nodes.filter fun p => p.1 == k).length) =
        ks.map fun k => (g2.nodes.filter fun p => p.1 == k).length :=
      List.map_congr_left fun k hk => by
        rw [filter_removeNode_ne g2 k0 k (fun hc => hnd.1 (hc ▸ hk))]
    rw [h3] at h2
    simp only [List.foldl_cons, List.map_cons, List.sum_cons]
    omega

/-- The donor fold never loses entries at any key. -/
theorem filterKeyLen_phase2_mono (mainNode : NodeKey) (feat : List Nat)
    (k : NodeKey) :
    ∀ (others : List NodeKey) (g : RelGraphState),
      (g.nodes.filter fun p => p.1 == k).length ≤
        ((others.foldl (donorFoldStep mainNode feat) g).nodes.filter
          fun p => p.1 == k).length := by
  intro others
  induction others with
  | nil => intro g; exact le_refl _
  | cons k0 ks ih =>
    intro g
    rw [List.foldl_cons]
    refine le_trans ?_ (ih (donorFoldStep mainNode feat g k0))
    exact filterKeyLen_addNode_mono g _ _ _ _ _ _ k

/-- The removal-phase count, packaged: the removals pay back the at-most-one
node the donor fold added, as soon as one donor still has an entry. -/
theorem countChain (g g1 g2 : RelGraphState) (others : List NodeKey)
    (h1 : g1.nodes.length ≤ g.nodes.length + 1)
    (h2 : g2.nodes = g1.nodes)
    (hnd : others.Nodup)
    (hpos : ∃ k0 ∈ others, 0 < (g1.nodes.filter fun p => p.1 == k0).length) :
    (others.foldl removeNode g2).nodes.length ≤ g.nodes.length := by
  have h4 := mergeNodesPhase4Count others g2 hnd
  rw [h2] at h4
  obtain ⟨k0, hk0m, hk0pos⟩ := hpos
  have hmem : (g1.nodes.filter fun p => p.1 == k0).length ∈
      others.map fun k => (g1.nodes.filter fun p => p.1 == k).length :=
    List.mem_map_of_mem _ hk0m
  have hsum := List.single_le_sum (fun x _ => Nat.zero_le x) _ hmem
  omega

/-- `_merge_nodes` never increases the node count when the merged nodes are
distinct and present: the donor fold adds at most one node and the removal
of the (still-present) donors pays it back. -/
theorem mergeNodes_count_le (g : RelGraphState) (ks : List NodeKey)
    (hknd : ks.Nodup) (hkpres : ∀ k ∈ ks, hasNode g k = true) :
    nodesNumber (mergeNodes g ks) ≤ nodesNumber g := by
  unfold nodesNumber mergeNodes
  cases hs : sortNodesDesc g ks with
  | nil => exact le_refl _
  | cons mainNode others =>
    dsimp only
    have hndall : (mainNode :: others).Nodup := by
      have : (sortNodesDesc g ks).Nodup :=
        ((sortB_perm _ ks).nodup_iff).mpr hknd
      rw [hs] at this
      exact this
    cases others with
    | nil =>
      simp only [List.foldl_nil]
      rw [nodes_mergeNodesPhase3]
    | cons k0 rest =>
      have hk0ks : k0 ∈ ks := by
        have : k0 ∈ sortNodesDesc g ks := by
          rw [hs]
          exact List.mem_cons_of_mem _ (List.mem_cons_self _ _)
        exact (sortB_perm _ ks).mem_iff.mp this
      have hk0g : hasNode g k0 = true := hkpres k0 hk0ks
      refine countChain g
        ((k0 :: rest).foldl
          (donorFoldStep mainNode
            ((k0 :: rest).foldl (fun acc k => natSetUnion acc (nodeAttr g k).featType)
              (nodeAttr g mainNode).featType)) g)
        _ (k0 :: rest) ?_ ?_ ?_ ?_
      · exact (mergeNodesPhase2Count mainNode _ (k0 :: rest) g).1
      · exact nodes_mergeNodesPhase3 _ _ _ _
      · exact (List.nodup_cons.mp hndall).2
      · refine ⟨k0, List.mem_cons_self _ _, ?_⟩
        exact lt_of_lt_of_le (any_key_pos_filter k0 g.nodes hk0g)
          (filterKeyLen_phase2_mono mainNode _ k0 (k0 :: rest) g)

/-- `_add_edge` grows the edge count by at most one. -/
theorem length_addEdge_le (g : RelGraphState) (s t : NodeKey)
    (lb lm dp d : List String) (w : Nat) (f : List Nat) :
    (addEdge g s t lb lm dp d w f).edges.length ≤ g.edges.length + 1 := by
  unfold addEdge
  by_cases h : hasEdgeK g s t (mkEdgeKey lb lm dp)
  · simp only [if_pos h]
    rw [length_updFirst]
    exact Nat.le_succ _
  · simp only [if_neg h]
    simp

/-- `remove_edge` drops exactly the entries at the removed position. -/
theorem removeEdge_length (g : RelGraphState) (e : EdgeTriple) :
    g.edges.length = (removeEdge g e).edges.length +
      (g.edges.filter fun p => p.1 == e).length := by
  unfold removeEdge
  dsimp only
  have hs := length_filter_key_split e g.edges
  omega

/-- The `_merge_edges` rewrite loop never increases the edge count when the
merged edges are distinct, present, and none already sits at the shared new
key: each iteration adds at most one entry and removes at least one. -/
theorem mergeEdgesFoldCount (L Lm Dp : List String) (W : Nat) :
    ∀ (es : List EdgeTriple) (g : RelGraphState),
      es.Nodup →
      (∀ e ∈ es, e.2.2 ≠ mkEdgeKey L Lm Dp) →
      (∀ e ∈ es, 0 < (g.edges.filter fun p => p.1 == e).length) →
      (es.foldl (mergeEdgeStep L Lm Dp W) g).edges.length ≤ g.edges.length := by
  intro es
  induction es with
  | nil => intro g _ _ _; exact le_refl _
  | cons e0 rest ih =>
    intro g hnd hK hpos
    rw [List.nodup_cons] at hnd
    have hK0 : e0.2.2 ≠ mkEdgeKey L Lm Dp := hK e0 (List.mem_cons_self _ _)
    have hne0 : e0 ≠ (e0.1, e0.2.1, mkEdgeKey L Lm Dp) := by
      intro hc
      exact hK0 (by
        have := congrArg (fun x : EdgeTriple => x.2.2) hc
        simpa using this)
    set gA := addEdge g e0.1 e0.2.1 L Lm Dp (edgeAttr g e0).description W
      (edgeAttr g e0).featType with hgA
    have hstep : mergeEdgeStep L Lm Dp W g e0 = removeEdge gA e0 := rfl
    have hlenA : gA.edges.length ≤ g.edges.length + 1 :=
      length_addEdge_le g _ _ _ _ _ _ _ _
    have hremA := removeEdge_length gA e0
    have hfa : gA.edges.filter (fun p => p.1 == e0) =
        g.edges.filter fun p => p.1 == e0 :=
      filter_addEdge_ne g _ _ _ _ _ _ _ _ e0 hne0
    have hpos0 := hpos e0 (List.mem_cons_self _ _)
    have hrestK : ∀ e ∈ rest, e.2.2 ≠ mkEdgeKey L Lm Dp :=
      fun e he => hK e (List.mem_cons_of_mem _ he)
    have hfil : ∀ e ∈ rest,
        (removeEdge gA e0).edges.filter (fun p => p.1 == e) =
          g.edges.filter fun p => p.1 == e := by
      intro e he
      have hne : e ≠ (e0.1, e0.2.1, mkEdgeKey L Lm Dp) := by
        intro hc
        exact hrestK e he (by
          have := congrArg (fun x : EdgeTriple => x.2.2) hc
          simpa using this)
      rw [filter_removeEdge_ne gA e0 e (fun hc => hnd.1 (hc ▸ he)),
        filter_addEdge_ne g _ _ _ _ _ _ _ _ e hne]
    have hpos' : ∀ e ∈ rest,
        0 < ((removeEdge gA e0).edges.filter fun p => p.1 == e).length := by
      intro e he
      rw [hfil e he]
      exact hpos e (List.mem_cons_of_mem _ he)
    have hih := ih (removeEdge gA e0) hnd.2 hrestK hpos'
    rw [List.foldl_cons, hstep]
    rw [hfa] at hremA
    omega

/-- `_merge_edges` never increases the edge count under the same provisos. -/
theorem mergeEdges_count_le (g : RelGraphState) (es : List EdgeTriple)
    (hnd : es.Nodup) (hK : ∀ e ∈ es, e.2.2 ≠ mergedEdgeKeyOf g es)
    (hpres : ∀ e ∈ es, (g.edges.any fun p => p.1 == e) = true) :
    edgesNumber (mergeEdges g es) ≤ edgesNumber g := by
  have h := mergeEdgesFoldCount
    (es.foldl (fun acc e => strSetUnion acc (edgeAttr g e).label) [])
    (es.foldl (fun acc e => strSetUnion acc (edgeAttr g e).lemmas) [])
    (es.foldl (fun acc e => strSetUnion acc (edgeAttr g e).deprel) [])
    ((es.map fun e => (edgeAttr g e).weight).sum) es g hnd
    (fun e he => hK e he)
    (fun e he => any_key_pos_filter e g.edges (hpres e he))
  have hmE : mergeEdges g es =
      es.foldl (mergeEdgeStep
        (es.foldl (fun acc e => strSetUnion acc (edgeAttr g e).label) [])
        (es.foldl (fun acc e => strSetUnion acc (edgeAttr g e).lemmas) [])
        (es.foldl (fun acc e => strSetUnion acc (edgeAttr g e).deprel) [])
        ((es.map fun e => (edgeAttr g e).weight).sum)) g := rfl
  unfold edgesNumber
  rw [hmE]
  exact h

/-- The edge-position sequence `_add_edge` leaves behind: unchanged on
update, the computed triple appended on create. -/
theorem map_fst_addEdge (g : RelGraphState) (s t : NodeKey)
    (lb lm dp d : List String) (w : Nat) (f : List Nat) :
    (addEdge g s t lb lm dp d w f).edges.map Prod.fst =
      if hasEdgeK g s t (mkEdgeKey lb lm dp) then g.edges.map Prod.fst
      else g.edges.map Prod.fst ++ [(s, t, mkEdgeKey lb lm dp)] := by
  unfold addEdge
  by_cases h : hasEdgeK g s t (mkEdgeKey lb lm dp)
  · simp only [if_pos h]
    exact map_fst_updFirst _ _ _
  · simp only [if_neg h]
    simp

/-- `_add_edge` keeps every existing edge position present. -/
theorem hasTriple_addEdge (g : RelGraphState) (s t : NodeKey)
    (lb lm dp d : List String) (w : Nat) (f : List Nat) (e : EdgeTriple)
    (h : (g.edges.any fun p => p.1 == e) = true) :
    ((addEdge g s t lb lm dp d w f).edges.any fun p => p.1 == e) = true := by
  rw [any_key_eq_map] at h ⊢
  rw [map_fst_addEdge]
  by_cases hc : hasEdgeK g s t (mkEdgeKey lb lm dp)
  · rw [if_pos hc]
    exact h
  · rw [if_neg hc, List.any_append, h]
    rfl

/-- `_add_edge` never shrinks the edge store. -/
theorem length_le_addEdge (g : RelGraphState) (s t : NodeKey)
    (lb lm dp d : List String) (w : Nat) (f : List Nat) :
    g.edges.length ≤ (addEdge g s t lb lm dp d w f).edges.length := by
  unfold addEdge
  by_cases h : hasEdgeK g s t (mkEdgeKey lb lm dp)
  · simp only [if_pos h]
    rw [length_updFirst]
  · simp only [if_neg h]
    simp

/-- Folding a step that keeps the node store, grows the edge store and keeps
every edge position keeps all three properties. -/
theorem foldPairMono {β : Type} (step : RelGraphState × Bool → β → RelGraphState × Bool)
    (h : ∀ acc p, ((step acc p).1.nodes = acc.1.nodes) ∧
        (acc.1.edges.length ≤ (step acc p).1.edges.length) ∧
        (∀ e : EdgeTriple, (acc.1.edges.any fun q => q.1 == e) = true →
          ((step acc p).1.edges.any fun q => q.1 == e) = true)) :
    ∀ (l : List β) (acc : RelGraphState × Bool),
      ((l.foldl step acc).1.nodes = acc.1.nodes) ∧
      (acc.1.edges.length ≤ (l.foldl step acc).1.edges.length) ∧
      (∀ e : EdgeTriple, (acc.1.edges.any fun q => q.1 == e) = true →
        ((l.foldl step acc).1.edges.any fun q => q.1 == e) = true) := by
  intro l
  induction l with
  | nil => exact fun acc => ⟨rfl, le_refl _, fun e he => he⟩
  | cons p ps ih =>
    intro acc
    obtain ⟨h1, h2, h3⟩ := h acc p
    obtain ⟨i1, i2, i3⟩ := ih (step acc p)
    exact ⟨by rw [List.foldl_cons, i1, h1],
      le_trans h2 (by rw [List.foldl_cons]; exact i2),
      fun e he => by rw [List.foldl_cons]; exact i3 e (h3 e he)⟩

/-- One `_inherit_relations` node visit keeps the node store, never shrinks
the edge store, and keeps every existing edge position. -/
theorem inheritAtNode_mono (g : RelGraphState) (n : NodeKey) :
    ((inheritAtNode g n).1.nodes = g.nodes) ∧
    (g.edges.length ≤ (inheritAtNode g n).1.edges.length) ∧
    (∀ e : EdgeTriple, (g.edges.any fun q => q.1 == e) = true →
      ((inheritAtNode g n).1.edges.any fun q => q.1 == e) = true) := by
  unfold inheritAtNode
  have hstep1 : ∀ (acc : RelGraphState × Bool) (p : EdgeTriple × EdgeAttrs),
      (((if hasEdgeK acc.1 p.1.1 n p.1.2.2 then acc
        else
          (addEdge acc.1 p.1.1 n p.2.label p.2.lemmas p.2.deprel p.2.description
            p.2.weight p.2.featType, true)).1.nodes = acc.1.nodes)) ∧
      (acc.1.edges.length ≤ (if hasEdgeK acc.1 p.1.1 n p.1.2.2 then acc
        else
          (addEdge acc.1 p.1.1 n p.2.label p.2.lemmas p.2.deprel p.2.description
            p.2.weight p.2.featType, true)).1.edges.length) ∧
      (∀ e : EdgeTriple, (acc.1.edges.any fun q => q.1 == e) = true →
        ((if hasEdgeK acc.1 p.1.1 n p.1.2.2 then acc
          else
            (addEdge acc.1 p.1.1 n p.2.label p.2.lemmas p.2.deprel p.2.description
              p.2.weight p.2.featType, true)).1.edges.any fun q => q.1 == e) = true) := by
    intro acc p
    by_cases hc : hasEdgeK acc.1 p.1.1 n p.1.2.2
    · simp only [if_pos hc]
      exact ⟨trivial, le_refl _, fun e he => he⟩
    · simp only [if_neg hc]
      exact ⟨nodes_addEdge _ _ _ _ _ _ _ _ _,
        length_le_addEdge _ _ _ _ _ _ _ _ _,
        fun e he => hasTriple_addEdge _ _ _ _ _ _ _ _ _ e he⟩
  have hstep2 : ∀ (acc : RelGraphState × Bool) (p : EdgeTriple × EdgeAttrs),
      (((if hasEdgeK acc.1 n p.1.2.1 p.1.2.2 then acc
        else
          (addEdge acc.1 n p.1.2.1 p.2.label p.2.lemmas p.2.deprel p.2.description
            p.2.weight p.2.featType, true)).1.nodes = acc.1.nodes)) ∧
      (acc.1.edges.length ≤ (if hasEdgeK acc.1 n p.1.2.1 p.1.2.2 then acc
        else
          (addEdge acc.1 n p.1.2.1 p.2.label p.2.lemmas p.2.deprel p.2.description
            p.2.weight p.2.featType, true)).1.edges.length) ∧
      (∀ e : EdgeTriple, (acc.1.edges.any fun q => q.1 == e) = true →
        ((if hasEdgeK acc.1 n p.1.2.1 p.1.2.2 then acc
          else
            (addEdge acc.1 n p.1.2.1 p.2.label p.2.lemmas p.2.deprel p.2.description
              p.2.weight p.2.featType, true)).1.edges.any fun q => q.1 == e) = true) := by
    intro acc p
    by_cases hc : hasEdgeK acc.1 n p.1.2.1 p.1.2.2
    · simp only [if_pos hc]
      exact ⟨trivial, le_refl _, fun e he => he⟩
    · simp only [if_neg hc]
      exact ⟨nodes_addEdge _ _ _ _ _ _ _ _ _,
        length_le_addEdge _ _ _ _ _ _ _ _ _,
        fun e he => hasTriple_addEdge _ _ _ _ _ _ _ _ _ e he⟩
  obtain ⟨a1, a2, a3⟩ := foldPairMono _ hstep1
    (g.edges.filter fun p =>
      ((listDedup
        ((g.edges.filter fun p => p.1.2.1 == n && p.1.2.2 == EdgeKey.isA).map
          fun p => p.1.1)).contains p.1.2.1) && isRelKey p.1.2.2)
    (g, false)
  obtain ⟨b1, b2, b3⟩ := foldPairMono _ hstep2
    (g.edges.filter fun p =>
      ((listDedup
        ((g.edges.filter fun p => p.1.2.1 == n && p.1.2.2 == EdgeKey.isA).map
          fun p => p.1.1)).contains p.1.1) && isRelKey p.1.2.2)
    ((g.edges.filter fun p =>
      ((listDedup
        ((g.edges.filter fun p => p.1.2.1 == n && p.1.2.2 == EdgeKey.isA).map
          fun p => p.1.1)).contains p.1.2.1) && isRelKey p.1.2.2).foldl
      (fun (acc : RelGraphState × Bool) p =>
        if hasEdgeK acc.1 p.1.1 n p.1.2.2 then acc
        else
          (addEdge acc.1 p.1.1 n p.2.label p.2.lemmas p.2.deprel p.2.description
            p.2.weight p.2.featType, true))
      (g, false))
  exact ⟨by rw [b1, a1], le_trans a2 b2, fun e he => b3 e (a3 e he)⟩

/-- One full `_inherit_relations` pass keeps the node store, never shrinks
the edge store, and keeps every existing edge position. -/
theorem inheritOnce_mono (g : RelGraphState) :
    ((inheritOnce g).1.nodes = g.nodes) ∧
    (g.edges.length ≤ (inheritOnce g).1.edges.length) ∧
    (∀ e : EdgeTriple, (g.edges.any fun q => q.1 == e) = true →
      ((inheritOnce g).1.edges.any fun q => q.1 == e) = true) := by
  unfold inheritOnce
  have hstep : ∀ (acc : RelGraphState × Bool) (n : NodeKey),
      ((((inheritAtNode acc.1 n).1, acc.2 || (inheritAtNode acc.1 n).2) :
          RelGraphState × Bool).1.nodes = acc.1.nodes) ∧
      (acc.1.edges.length ≤ (((inheritAtNode acc.1 n).1,
          acc.2 || (inheritAtNode acc.1 n).2) :
          RelGraphState × Bool).1.edges.length) ∧
      (∀ e : EdgeTriple, (acc.1.edges.any fun q => q.1 == e) = true →
        ((((inheritAtNode acc.1 n).1, acc.2 || (inheritAtNode acc.1 n).2) :
            RelGraphState × Bool).1.edges.any fun q => q.1 == e) = true) := by
    intro acc n
    obtain ⟨h1, h2, h3⟩ := inheritAtNode_mono acc.1 n
    exact ⟨h1, h2, h3⟩
  exact foldPairMono _ hstep (nodeKeys g) (g, false)

/-- `_inherit_relations` keeps the node store, never shrinks the edge store,
and keeps every existing edge position: it only adds edges. -/
theorem inheritRelations_mono (fuel : Nat) :
    ∀ g : RelGraphState,
      ((inheritRelations g fuel).nodes = g.nodes) ∧
      (g.edges.length ≤ (inheritRelations g fuel).edges.length) ∧
      (∀ e : EdgeTriple, (g.edges.any fun q => q.1 == e) = true →
        ((inheritRelations g fuel).edges.any fun q => q.1 == e) = true) := by
  induction fuel with
  | zero => exact fun g => ⟨rfl, le_refl _, fun e he => he⟩
  | succ n ih =>
    intro g
    obtain ⟨h1, h2, h3⟩ := inheritOnce_mono g
    have hunf : inheritRelations g (n + 1) =
        if (inheritOnce g).2 then inheritRelations (inheritOnce g).1 n
        else (inheritOnce g).1 := rfl
    rw [hunf]
    by_cases hc : (inheritOnce g).2
    · simp only [if_pos hc]
      obtain ⟨i1, i2, i3⟩ := ih (inheritOnce g).1
      exact ⟨by rw [i1, h1], le_trans h2 i2, fun e he => i3 e (h3 e he)⟩
    · simp only [if_neg hc]
      exact ⟨h1, h2, h3⟩

/-- C8 (amended): the loops' progress is monotone, not strictly decreasing.
A `_merge_nodes` call on distinct, present nodes never increases the node
count (but need not decrease it — see the counterexample); a `_merge_edges`
call on distinct, present edges none of which already sits at the shared new
key never increases the edge count; and `_inherit_relations` only adds
edges: it keeps the node store, never shrinks the edge store, and every
existing edge position survives. -/
theorem C8_amended_monotone (g1 g2 g3 : RelGraphState) (ks : List NodeKey)
    (es : List EdgeTriple) (fuel : Nat)
    (hknd : ks.Nodup) (hkpres : ∀ k ∈ ks, hasNode g1 k = true)
    (hend : es.Nodup) (heK : ∀ e ∈ es, e.2.2 ≠ mergedEdgeKeyOf g2 es)
    (hepres : ∀ e ∈ es, (g2.edges.any fun p => p.1 == e) = true) :
    nodesNumber (mergeNodes g1 ks) ≤ nodesNumber g1 ∧
    edgesNumber (mergeEdges g2 es) ≤ edgesNumber g2 ∧
    (inheritRelations g3 fuel).nodes = g3.nodes ∧
    edgesNumber g3 ≤ edgesNumber (inheritRelations g3 fuel) ∧
    (∀ e : EdgeTriple, (g3.edges.any fun q => q.1 == e) = true →
      ((inheritRelations g3 fuel).edges.any fun q => q.1 == e) = true) :=
  ⟨mergeNodes_count_le g1 ks hknd hkpres,
    mergeEdges_count_le g2 es hend heK hepres,
    (inheritRelations_mono fuel g3).1,
    (inheritRelations_mono fuel g3).2.1,
    (inheritRelations_mono fuel g3).2.2⟩

/-- The amended C8 at concrete inputs. -/
theorem C8_amended_monotone_witness :
    nodesNumber (mergeNodes gC8ce [("xa", [1]), ("xb", [2])]) ≤ nodesNumber gC8ce ∧
    edgesNumber (mergeEdges gC2ce esC2) ≤ edgesNumber gC2ce ∧
    (inheritRelations gC6 2).nodes = gC6.nodes ∧
    edgesNumber gC6 ≤ edgesNumber (inheritRelations gC6 2) ∧
    (∀ e : EdgeTriple, (gC6.edges.any fun q => q.1 == e) = true →
      ((inheritRelations gC6 2).edges.any fun q => q.1 == e) = true) :=
  C8_amended_monotone gC8ce gC2ce gC6 [("xa", [1]), ("xb", [2])] esC2 2
    (by decide) (by decide) (by decide) (by decide) (by decide)

/-! ## C6: the node-budget filter -/

/-- `set.add` grows the kept set by at most one. -/
theorem setAdd_length_le (l : List NodeKey) (x : NodeKey) :
    (setAdd l x).length ≤ l.length + 1 := by
  unfold setAdd
  split
  · exact Nat.le_succ _
  · simp

/-- `set.add` keeps the kept set duplicate-free. -/
theorem setAdd_nodup (l : List NodeKey) (x : NodeKey) (h : l.Nodup) :
    (setAdd l x).Nodup := by
  unfold setAdd
  split
  · exact h
  · rw [List.nodup_append]
    refine ⟨h, List.nodup_singleton _, ?_⟩
    intro y hy hy1
    simp only [List.mem_singleton] at hy1
    subst hy1
    exact absurd hy (by assumption)

/-- Elements of `set.add` come from the set or are the added one. -/
theorem setAdd_mem (l : List NodeKey) (x y : NodeKey) (h : y ∈ setAdd l x) :
    y ∈ l ∨ y = x := by
  unfold setAdd at h
  split at h
  · exact Or.inl h
  · rcases List.mem_append.mp h with h1 | h1
    · exact Or.inl h1
    · simp only [List.mem_singleton] at h1
      exact Or.inr h1

/-- The eviction loop never grows the kept set. -/
theorem evictLoopF_length (g : RelGraphState) (allNodes : List NodeKey) :
    ∀ (fuel : Nat) (keep : List NodeKey) (nextIdx : Nat),
      (evictLoopF g allNodes fuel keep nextIdx).length ≤ keep.length := by
  intro fuel
  induction fuel with
  | zero => intro keep nextIdx; exact le_refl _
  | succ m ih =>
    intro keep nextIdx
    unfold evictLoopF
    cases hf : keep.find? fun k => evictable g keep k with
    | none => exact le_refl _
    | some node =>
      dsimp only
      have hmem : node ∈ keep := List.mem_of_find?_eq_some hf
      have hpos : 0 < keep.length := List.length_pos_of_mem hmem
      have herase : (keep.erase node).length = keep.length - 1 :=
        List.length_erase_of_mem hmem
      by_cases hidx : nextIdx < allNodes.length
      · rw [if_pos hidx]
        refine le_trans (ih _ _) ?_
        have := setAdd_length_le (keep.erase node) (allNodes.getD nextIdx default)
        omega
      · rw [if_neg hidx]
        refine le_trans (ih _ _) ?_
        omega

/-- Elements of the eviction loop's result come from the initial kept set or
the full node list. -/
theorem evictLoopF_subset (g : RelGraphState) (allNodes : List NodeKey) :
    ∀ (fuel : Nat) (keep : List NodeKey) (nextIdx : Nat) (x : NodeKey),
      x ∈ evictLoopF g allNodes fuel keep nextIdx → x ∈ keep ∨ x ∈ allNodes := by
  intro fuel
  induction fuel with
  | zero => intro keep nextIdx x hx; exact Or.inl hx
  | succ m ih =>
    intro keep nextIdx x hx
    unfold evictLoopF at hx
    cases hf : keep.find? fun k => evictable g keep k with
    | none =>
      rw [hf] at hx
      exact Or.inl hx
    | some node =>
      rw [hf] at hx
      dsimp only at hx
      by_cases hidx : nextIdx < allNodes.length
      · rw [if_pos hidx] at hx
        rcases ih _ _ x hx with h1 | h1
        · rcases setAdd_mem _ _ _ h1 with h2 | h2
          · exact Or.inl (List.mem_of_mem_erase h2)
          · subst h2
            refine Or.inr ?_
            rw [List.getD_eq_getElem?_getD, List.getElem?_eq_getElem hidx]
            exact List.getElem_mem _
        · exact Or.inr h1
      · rw [if_neg hidx] at hx
        rcases ih _ _ x hx with h1 | h1
        · exact Or.inl (List.mem_of_mem_erase h1)
        · exact Or.inr h1

/-- The eviction loop keeps the kept set duplicate-free. -/
theorem evictLoopF_nodup (g : RelGraphState) (allNodes : List NodeKey) :
    ∀ (fuel : Nat) (keep : List NodeKey) (nextIdx : Nat), keep.Nodup →
      (evictLoopF g allNodes fuel keep nextIdx).Nodup := by
  intro fuel
  induction fuel with
  | zero => intro keep nextIdx h; exact h
  | succ m ih =>
    intro keep nextIdx h
    unfold evictLoopF
    cases hf : keep.find? fun k => evictable g keep k with
    | none => exact h
    | some node =>
      dsimp only
      by_cases hidx : nextIdx < allNodes.length
      · rw [if_pos hidx]
        exact ih _ _ (setAdd_nodup _ _ (h.erase node))
      · rw [if_neg hidx]
        exact ih _ _ (h.erase node)

/-- With fuel exceeding the loop measure, the eviction loop runs to
completion: no kept node is evictable from the result. -/
theorem evictLoopF_done (g : RelGraphState) (allNodes : List NodeKey) :
    ∀ (fuel : Nat) (keep : List NodeKey) (nextIdx : Nat),
      (allNodes.length - nextIdx) + keep.length < fuel →
      ((evictLoopF g allNodes fuel keep nextIdx).find?
        fun k => evictable g (evictLoopF g allNodes fuel keep nextIdx) k) = none := by
  intro fuel
  induction fuel with
  | zero => intro keep nextIdx h; exact absurd h (Nat.not_lt_zero _)
  | succ m ih =>
    intro keep nextIdx h
    unfold evictLoopF
    cases hf : keep.find? fun k => evictable g keep k with
    | none => exact hf
    | some node =>
      dsimp only
      have hmem : node ∈ keep := List.mem_of_find?_eq_some hf
      have hpos : 0 < keep.length := List.length_pos_of_mem hmem
      have herase : (keep.erase node).length = keep.length - 1 :=
        List.length_erase_of_mem hmem
      by_cases hidx : nextIdx < allNodes.length
      · rw [if_pos hidx]
        refine ih _ _ ?_
        have := setAdd_length_le (keep.erase node) (allNodes.getD nextIdx default)
        omega
      · rw [if_neg hidx]
        refine ih _ _ ?_
        omega

/-- A fold whose step keeps the node store keeps the node store. -/
theorem foldl_nodes_const {β : Type} (step : RelGraphState → β → RelGraphState)
    (h : ∀ acc p, (step acc p).nodes = acc.nodes) :
    ∀ (l : List β) (acc : RelGraphState), (l.foldl step acc).nodes = acc.nodes := by
  intro l
  induction l with
  | nil => intro acc; rfl
  | cons p ps ih =>
    intro acc
    rw [List.foldl_cons, ih, h]

/-- `_perform_filtering`'s per-node removal drops exactly that node's
entries: the bridge pass only touches edges. -/
theorem removeNodeWithBridges_nodes (g : RelGraphState) (k : NodeKey) :
    (removeNodeWithBridges g k).nodes = g.nodes.filter fun p => !(p.1 == k) := by
  unfold removeNodeWithBridges
  have hinner : ∀ (outE : List (EdgeTriple × EdgeAttrs))
      (acc : RelGraphState) (pe : EdgeTriple × EdgeAttrs),
      (outE.foldl
        (fun acc2 se =>
          if !(se.2.label == pe.2.label) then acc2
          else
            addEdge acc2 pe.1.1 se.1.2.1 (edgeAttr acc2 se.1).label
              (edgeAttr acc2 se.1).lemmas (edgeAttr acc2 se.1).deprel
              (edgeAttr acc2 se.1).description (edgeAttr acc2 se.1).weight
              (edgeAttr acc2 se.1).featType)
        acc).nodes = acc.nodes := by
    intro outE acc pe
    refine foldl_nodes_const _ ?_ outE acc
    intro acc2 se
    by_cases hc : !(se.2.label == pe.2.label)
    · simp only [if_pos hc]
    · simp only [if_neg hc]
      exact nodes_addEdge _ _ _ _ _ _ _ _ _
  have houter := foldl_nodes_const _
    (fun acc pe => hinner (g.edges.filter fun p => p.1.1 == k) acc pe)
    (g.edges.filter fun p => p.1.2.1 == k) g
  show (removeNode _ k).nodes = _
  unfold removeNode
  dsimp only
  rw [houter]

/-- The node store `_perform_filtering` leaves behind: every entry whose key
is not on the removal list, in order. -/
theorem performFiltering_nodes :
    ∀ (rem : List NodeKey) (g : RelGraphState),
      (performFiltering g rem).nodes =
        g.nodes.filter fun p => rem.all fun k => !(p.1 == k) := by
  intro rem
  induction rem with
  | nil =>
    intro g
    show g.nodes = _
    rw [List.filter_eq_self.mpr]
    intro p _
    rfl
  | cons k rest ih =>
    intro g
    show (performFiltering (removeNodeWithBridges g k) rest).nodes = _
    rw [ih, removeNodeWithBridges_nodes, List.filter_filter]
    refine List.filter_congr ?_
    intro p _
    simp only [List.all_cons]
    rw [Bool.and_comm]

/-- An in-place update by an entry-preserving function preserves an
entry-level predicate's witnesses. -/
theorem exists_entry_updFirst {κ α : Type} [BEq κ] (f : α → α) (k' : κ)
    (Q : κ × α → Prop) (hf : ∀ p : κ × α, Q p → Q (p.1, f p.2)) :
    ∀ l : List (κ × α), (∃ q ∈ l, Q q) → ∃ q ∈ updFirst l k' f, Q q := by
  intro l
  induction l with
  | nil => intro ⟨q, hq, _⟩; cases hq
  | cons p rest ih =>
    intro ⟨q, hq, hQ⟩
    unfold updFirst
    by_cases hp : p.1 == k'
    · rw [if_pos hp]
      rcases List.mem_cons.mp hq with rfl | hqr
      · exact ⟨(q.1, f q.2), List.mem_cons_self _ _, hf q hQ⟩
      · exact ⟨q, List.mem_cons_of_mem _ hqr, hQ⟩
    · rw [if_neg hp]
      rcases List.mem_cons.mp hq with rfl | hqr
      · exact ⟨q, List.mem_cons_self _ _, hQ⟩
      · obtain ⟨q', hq', hQ'⟩ := ih ⟨q, hqr, hQ⟩
        exact ⟨q', List.mem_cons_of_mem _ hq', hQ'⟩

/-- `_add_edge` preserves a non-structural entry at any position: an update
never touches the stored label. -/
theorem addEdge_keeps_nonstructural (g : RelGraphState) (s t : NodeKey)
    (lb lm dp d : List String) (w : Nat) (f : List Nat) (e : EdgeTriple)
    (h : ∃ q ∈ g.edges, q.1 = e ∧ isStructuralLabel q.2.label = false) :
    ∃ q ∈ (addEdge g s t lb lm dp d w f).edges,
      q.1 = e ∧ isStructuralLabel q.2.label = false := by
  unfold addEdge
  by_cases hc : hasEdgeK g s t (mkEdgeKey lb lm dp)
  · simp only [if_pos hc]
    exact exists_entry_updFirst _ _ _ (fun p hp => ⟨hp.1, hp.2⟩) g.edges h
  · simp only [if_neg hc]
    obtain ⟨q, hq, hQ⟩ := h
    exact ⟨q, List.mem_append_left _ hq, hQ⟩

/-- A fold whose step preserves non-structural entries preserves them. -/
theorem foldl_keeps_nonstructural {β : Type}
    (step : RelGraphState → β → RelGraphState) (e : EdgeTriple)
    (h : ∀ acc p, (∃ q ∈ acc.edges, q.1 = e ∧ isStructuralLabel q.2.label = false) →
      ∃ q ∈ (step acc p).edges, q.1 = e ∧ isStructuralLabel q.2.label = false) :
    ∀ (l : List β) (acc : RelGraphState),
      (∃ q ∈ acc.edges, q.1 = e ∧ isStructuralLabel q.2.label = false) →
      ∃ q ∈ (l.foldl step acc).edges,
        q.1 = e ∧ isStructuralLabel q.2.label = false := by
  intro l
  induction l with
  | nil => intro acc hacc; exact hacc
  | cons p ps ih =>
    intro acc hacc
    rw [List.foldl_cons]
    exact ih _ (h acc p hacc)

/-- `_perform_filtering`'s per-node removal preserves a non-structural edge
neither of whose endpoints is the removed node. -/
theorem removeNodeWithBridges_keeps (g : RelGraphState) (k : NodeKey)
    (e : EdgeTriple)
    (he : ∃ q ∈ g.edges, q.1 = e ∧ isStructuralLabel q.2.label = false)
    (h1 : e.1 ≠ k) (h2 : e.2.1 ≠ k) :
    ∃ q ∈ (removeNodeWithBridges g k).edges,
      q.1 = e ∧ isStructuralLabel q.2.label = false := by
  unfold removeNodeWithBridges
  have hinner : ∀ (pe : EdgeTriple × EdgeAttrs) (acc : RelGraphState),
      (∃ q ∈ acc.edges, q.1 = e ∧ isStructuralLabel q.2.label = false) →
      ∃ q ∈ ((g.edges.filter fun p => p.1.1 == k).foldl
        (fun acc2 se =>
          if !(se.2.label == pe.2.label) then acc2
          else
            addEdge acc2 pe.1.1 se.1.2.1 (edgeAttr acc2 se.1).label
              (edgeAttr acc2 se.1).lemmas (edgeAttr acc2 se.1).deprel
              (edgeAttr acc2 se.1).description (edgeAttr acc2 se.1).weight
              (edgeAttr acc2 se.1).featType)
        acc).edges, q.1 = e ∧ isStructuralLabel q.2.label = false := by
    intro pe acc hacc
    refine foldl_keeps_nonstructural _ e ?_ _ acc hacc
    intro acc2 se hq
    by_cases hc : !(se.2.label == pe.2.label)
    · simp only [if_pos hc]
      exact hq
    · simp only [if_neg hc]
      exact addEdge_keeps_nonstructural _ _ _ _ _ _ _ _ _ e hq
  have houter := foldl_keeps_nonstructural _ e
    (fun acc pe => hinner pe acc) (g.edges.filter fun p => p.1.2.1 == k) g he
  obtain ⟨q, hq, hQ1, hQ2⟩ := houter
  refine ⟨q, ?_, hQ1, hQ2⟩
  show q ∈ (removeNode _ k).edges
  unfold removeNode
  dsimp only
  refine List.mem_filter.mpr ⟨hq, ?_⟩
  rw [hQ1]
  simp only [Bool.and_eq_true, Bool.not_eq_true']
  exact ⟨by simpa using h1, by simpa using h2⟩

/-- `_perform_filtering` preserves a non-structural edge neither of whose
endpoints is on the removal list. -/
theorem performFiltering_keeps :
    ∀ (rem : List NodeKey) (g : RelGraphState) (e : EdgeTriple),
      (∃ q ∈ g.edges, q.1 = e ∧ isStructuralLabel q.2.label = false) →
      (∀ k ∈ rem, e.1 ≠ k ∧ e.2.1 ≠ k) →
      ∃ q ∈ (performFiltering g rem).edges,
        q.1 = e ∧ isStructuralLabel q.2.label = false := by
  intro rem
  induction rem with
  | nil => intro g e he _; exact he
  | cons k rest ih =>
    intro g e he hk
    show ∃ q ∈ (performFiltering (removeNodeWithBridges g k) rest).edges, _
    refine ih _ e ?_ (fun k' hk' => hk k' (List.mem_cons_of_mem _ hk'))
    exact removeNodeWithBridges_keeps g k e he
      (hk k (List.mem_cons_self _ _)).1 (hk k (List.mem_cons_self _ _)).2

/-- A failed `all` yields a failing element. -/
theorem all_false_exists {α : Type} (p : α → Bool) (l : List α)
    (h : l.all p = false) : ∃ x ∈ l, p x = false := by
  rcases List.all_eq_false.mp h with ⟨x, hx, hpx⟩
  exact ⟨x, hx, by simpa using hpx⟩

/-- Membership and the Python `in` test agree. -/
theorem contains_iff_mem {α : Type} [BEq α] [LawfulBEq α] (x : α) (l : List α) :
    l.contains x = true ↔ x ∈ l := by
  simp

/-- C6 (amended): `filter_nodes(n)` retains at most `n` nodes, and every
retained node has at least one non-structural edge, surviving in the
filtered graph, that connects it to a retained node — possibly itself: a
node whose only non-structural edge is a self-loop passes the eviction test
and is kept, so "another retained node" fails (see the counterexample). -/
theorem C6_amended_filter (g : RelGraphState) (n : Nat)
    (hgnd : (g.nodes.map Prod.fst).Nodup) :
    nodesNumber (filterNodes g n) ≤ n ∧
    ∀ pk ∈ (filterNodes g n).nodes, ∃ p ∈ (filterNodes g n).edges,
      isStructuralLabel p.2.label = false ∧
      (p.1.1 = pk.1 ∨ p.1.2.1 = pk.1) ∧
      hasNode (filterNodes g n) p.1.1 = true ∧
      hasNode (filterNodes g n) p.1.2.1 = true := by
  set allN := sortAllNodesByWeight g with hallN
  set keep0 := allN.take (min n allN.length) with hkeep0
  set keepF := evictLoopF g allN (2 * allN.length + 1) keep0
    (min n allN.length + 1) with hkeepF
  set rem := allN.filter (fun k => !(keepF.contains k)) with hrem
  have hfN : filterNodes g n = performFiltering g rem := rfl
  rw [hfN]
  have hallNd : allN.Nodup := (sortB_perm _ _).nodup_iff.mpr hgnd
  have hkeep0nd : keep0.Nodup := hallNd.sublist (by rw [hkeep0]; exact List.take_sublist _ _)
  have hkeepFnd : keepF.Nodup := evictLoopF_nodup g allN _ keep0 _ hkeep0nd
  have hkeepFsub : ∀ x ∈ keepF, x ∈ allN := by
    intro x hx
    rcases evictLoopF_subset g allN _ keep0 _ x hx with h | h
    · exact List.take_subset _ _ (hkeep0 ▸ h)
    · exact h
  have hkeepFlen : keepF.length ≤ min n allN.length := by
    refine le_trans (evictLoopF_length g allN _ keep0 _) ?_
    rw [hkeep0, List.length_take]
    omega
  have hdone : (keepF.find? fun k => evictable g keepF k) = none := by
    rw [hkeepF]
    refine evictLoopF_done g allN _ keep0 _ ?_
    rw [hkeep0, List.length_take]
    omega
  have hnoev : ∀ x ∈ keepF, evictable g keepF x = false := by
    intro x hx
    exact Bool.eq_false_iff.mpr (List.find?_eq_none.mp hdone x hx)
  have hkeymem : ∀ pk ∈ (performFiltering g rem).nodes, pk ∈ g.nodes ∧ pk.1 ∈ keepF := by
    intro pk hpk
    rw [performFiltering_nodes] at hpk
    obtain ⟨hpkg, hall⟩ := List.mem_filter.mp hpk
    refine ⟨hpkg, ?_⟩
    by_contra hnot
    have hkeyAll : pk.1 ∈ allN := by
      have hm : pk.1 ∈ nodeKeys g := List.mem_map_of_mem Prod.fst hpkg
      exact (sortB_perm _ _).mem_iff.mpr hm
    have hrm : pk.1 ∈ rem := by
      rw [hrem]
      refine List.mem_filter.mpr ⟨hkeyAll, ?_⟩
      simp only [Bool.not_eq_true']
      exact Bool.eq_false_iff.mpr (fun hc => hnot ((contains_iff_mem _ _).mp hc))
    have := List.all_eq_true.mp hall pk.1 hrm
    simp at this
  have hnotrem : ∀ y ∈ keepF, ∀ k ∈ rem, y ≠ k := by
    intro y hy k hk heq
    subst heq
    rw [hrem] at hk
    obtain ⟨_, hkc⟩ := List.mem_filter.mp hk
    simp only [Bool.not_eq_true'] at hkc
    exact absurd ((contains_iff_mem _ _).mpr hy) (by rw [hkc]; exact fun h => Bool.false_ne_true h)
  have hhas : ∀ y ∈ keepF, hasNode (performFiltering g rem) y = true := by
    intro y hy
    have hyAll : y ∈ allN := hkeepFsub y hy
    have hyKeys : y ∈ nodeKeys g := (sortB_perm _ _).mem_iff.mp hyAll
    obtain ⟨pe, hpe, hpev⟩ := List.mem_map.mp hyKeys
    unfold hasNode
    refine List.any_eq_true.mpr ⟨pe, ?_, by simp [hpev]⟩
    rw [performFiltering_nodes]
    refine List.mem_filter.mpr ⟨hpe, ?_⟩
    rw [List.all_eq_true]
    intro k hk
    have hne := hnotrem y hy k hk
    simp only [Bool.not_eq_true']
    rw [hpev]
    exact Bool.eq_false_iff.mpr (by simpa using hne)
  constructor
  · -- the budget bound
    have hndkeys : ((performFiltering g rem).nodes.map Prod.fst).Nodup := by
      rw [performFiltering_nodes]
      exact hgnd.sublist ((List.filter_sublist _).map Prod.fst)
    have hsubkeys : (performFiltering g rem).nodes.map Prod.fst ⊆ keepF := by
      intro x hx
      obtain ⟨pk, hpk, rfl⟩ := List.mem_map.mp hx
      exact (hkeymem pk hpk).2
    have hle : ((performFiltering g rem).nodes.map Prod.fst).length ≤ keepF.length :=
      (hndkeys.subperm hsubkeys).length_le
    rw [List.length_map] at hle
    unfold nodesNumber
    have := Nat.min_le_left n allN.length
    omega
  · -- the non-structural-neighbour property
    intro pk hpk
    obtain ⟨hpkg, hpkkeep⟩ := hkeymem pk hpk
    have hev := hnoev pk.1 hpkkeep
    unfold evictable at hev
    have hbuild : ∃ x ∈ g.edges, isStructuralLabel x.2.label = false ∧
        (x.1.1 = pk.1 ∨ x.1.2.1 = pk.1) ∧ x.1.1 ∈ keepF ∧ x.1.2.1 ∈ keepF := by
      rcases Bool.and_eq_false_iff.mp hev with hc | hc
      · obtain ⟨x, hxf, hxs⟩ := all_false_exists _ _ hc
        obtain ⟨hxg, hxc⟩ := List.mem_filter.mp hxf
        simp only [Bool.and_eq_true] at hxc
        obtain ⟨hb1, hb2⟩ := hxc
        have he1 : x.1.1 = pk.1 := by simpa using hb1
        have he2 : x.1.2.1 ∈ keepF := (contains_iff_mem _ _).mp hb2
        exact ⟨x, hxg, hxs, Or.inl he1, he1 ▸ hpkkeep, he2⟩
      · obtain ⟨x, hxf, hxs⟩ := all_false_exists _ _ hc
        obtain ⟨hxg, hxc⟩ := List.mem_filter.mp hxf
        simp only [Bool.and_eq_true] at hxc
        obtain ⟨hb1, hb2⟩ := hxc
        have he1 : x.1.2.1 = pk.1 := by simpa using hb1
        have he2 : x.1.1 ∈ keepF := (contains_iff_mem _ _).mp hb2
        exact ⟨x, hxg, hxs, Or.inr he1, he2, he1 ▸ hpkkeep⟩
    obtain ⟨x, hxg, hlab, hend, hin1, hin2⟩ := hbuild
    obtain ⟨q, hqmem, hq1, hq2⟩ := performFiltering_keeps rem g x.1
      ⟨x, hxg, rfl, hlab⟩
      (fun k hk => ⟨hnotrem _ hin1 k hk, hnotrem _ hin2 k hk⟩)
    refine ⟨q, hqmem, hq2, ?_, ?_, ?_⟩
    · rw [hq1]
      exact hend
    · rw [hq1]
      exact hhas x.1.1 hin1
    · rw [hq1]
      exact hhas x.1.2.1 hin2

/-- The amended C6 on the self-loop graph with budget 2: only the self-loop
node survives, and its non-structural edge connects it to itself. -/
theorem C6_amended_filter_witness :
    nodesNumber (filterNodes gC6 2) ≤ 2 ∧
    ∀ pk ∈ (filterNodes gC6 2).nodes, ∃ p ∈ (filterNodes gC6 2).edges,
      isStructuralLabel p.2.label = false ∧
      (p.1.1 = pk.1 ∨ p.1.2.1 = pk.1) ∧
      hasNode (filterNodes gC6 2) p.1.1 = true ∧
      hasNode (filterNodes gC6 2) p.1.2.1 = true :=
  C6_amended_filter gC6 2 (by decide)
